import Mathlib

/-!
Shallow embedding of the minicache repository (src/cache.go) together with
the parts of Go's net/url percent-encoding that cache.go calls
(url.PathUnescape / url.PathEscape with mode encodePathSegment).

Go strings are byte sequences; we model a Go string as a list of bytes
(Fin 256).  Go time.Time / time.Duration are modelled as integers
(nanoseconds); time.Time.Before is strict less-than.
-/

namespace Minicache

/-- A Go byte. -/
abbrev Byte := Fin 256

/-- A Go string: a sequence of bytes. -/
abbrev GoString := List Byte

/-- Embeds net/url ishex: ASCII 0-9, a-f, A-F. -/
def ishex (c : Byte) : Bool :=
  (48 ≤ c.val && c.val ≤ 57) || (97 ≤ c.val && c.val ≤ 102) || (65 ≤ c.val && c.val ≤ 70)

/-- Embeds net/url unhex, returning the numeric value of a hex digit byte. -/
def unhex (c : Byte) : Nat :=
  if 48 ≤ c.val && c.val ≤ 57 then c.val - 48
  else if 97 ≤ c.val && c.val ≤ 102 then c.val - 97 + 10
  else if 65 ≤ c.val && c.val ≤ 70 then c.val - 65 + 10
  else 0

/-- Bound used to form the decoded byte; kept as a definition because the
definition of pathUnescape depends on it. -/
def unhex_lt_16 {c : Byte} (hhex : ishex c = true) : unhex c < 16 := by
  simp only [ishex, Bool.or_eq_true, Bool.and_eq_true, decide_eq_true_eq] at hhex
  unfold unhex
  split_ifs with h1 h2 h3 <;>
    simp_all only [Bool.and_eq_true, decide_eq_true_eq, not_and, not_le] <;> omega

/-- Embeds net/url unescape in mode encodePathSegment (url.PathUnescape):
every `%XX` with two hex digits becomes the byte `16*X+X`; a `%` not
followed by two hex digits is an error (`none`); every other byte is kept.
In mode encodePathSegment `+` is not special. -/
def pathUnescape : GoString → Option GoString
  | [] => some []
  | c :: rest =>
    if c.val = 37 then
      match rest with
      | h1 :: h2 :: rest2 =>
        if h : ishex h1 = true ∧ ishex h2 = true then
          (pathUnescape rest2).map
            (fun t => (⟨16 * unhex h1 + unhex h2, by
              have a1 := unhex_lt_16 h.1
              have a2 := unhex_lt_16 h.2
              omega⟩ : Byte) :: t)
        else none
      | _ => none
    else (pathUnescape rest).map (fun t => c :: t)

/-- Upper-case hex digit byte of a value below 16 (net/url upperhex table). -/
def upperhex (n : Fin 16) : Byte :=
  if n.val < 10 then ⟨48 + n.val, by omega⟩ else ⟨55 + n.val, by omega⟩

/-- Embeds net/url shouldEscape with mode encodePathSegment: alphanumerics
and the marks `-` `_` `.` `~` are kept, of the RFC reserved set
`$ & + , / : ; = ? @` exactly `/ ; , ?` are escaped, everything else is
escaped. -/
def shouldEscape (c : Byte) : Bool :=
  if (97 ≤ c.val && c.val ≤ 122) || (65 ≤ c.val && c.val ≤ 90) || (48 ≤ c.val && c.val ≤ 57) then
    false
  else if c.val = 45 || c.val = 95 || c.val = 46 || c.val = 126 then
    false
  else if c.val = 36 || c.val = 38 || c.val = 43 || c.val = 44 || c.val = 47 ||
          c.val = 58 || c.val = 59 || c.val = 61 || c.val = 63 || c.val = 64 then
    c.val = 47 || c.val = 59 || c.val = 44 || c.val = 63
  else true

/-- Embeds net/url escape in mode encodePathSegment (url.PathEscape). -/
def pathEscape : GoString → GoString
  | [] => []
  | c :: rest =>
    if shouldEscape c then
      (⟨37, by omega⟩ : Byte) :: upperhex ⟨c.val / 16, by have := c.isLt; omega⟩ ::
        upperhex ⟨c.val % 16, by omega⟩ :: pathEscape rest
    else c :: pathEscape rest

/-- The byte of the path separator character. -/
def slash : Byte := ⟨47, by omega⟩

/-- Decoding of the list of raw segments produced by splitting on `/`:
empty segments are skipped, the rest are percent-decoded in order; the
first decoding failure fails the whole decode (the loop body of fromPath). -/
def decodeSegments : List GoString → Option (List GoString)
  | [] => some []
  | s :: rest =>
    if s = [] then decodeSegments rest
    else
      match pathUnescape s with
      | none => none
      | some d => (decodeSegments rest).map (fun t => d :: t)

/-- Embeds fromPath (cache.go): split the raw path on `/`, drop empty
segments, percent-decode each segment. -/
def fromPath (p : GoString) : Option (List GoString) :=
  decodeSegments (p.splitOn slash)

/-- Embeds toCanonicalPath (cache.go): drop empty segments, percent-encode
each remaining segment, join with `/` and prefix a leading `/`. -/
def toCanonicalPath (p : List GoString) : GoString :=
  slash :: List.intercalate [slash] ((p.filter (fun s => !s.isEmpty)).map pathEscape)

/-- Handler errors are opaque Go error values; we model them by naturals. -/
abbrev HErr := Nat

/-- Embeds HandlerFunc: func(path []string) ([]byte, error).  Both halves
of a Go multi-return can independently be nil; the first component is
`none` exactly when the returned byte slice is nil, the second is `none`
exactly when the returned error is nil. -/
abbrev HandlerFn := List GoString → Option GoString × Option HErr

/-- Embeds cacheRules (a TTL duration in nanoseconds). -/
structure CacheRules where
  ttl : Int
deriving DecidableEq

/-- Embeds the route struct.  staticChildren (a Go map with unique keys)
is an association list; handler and dynamicChild are nil-able pointers. -/
inductive Route where
  | mk (handler : Option HandlerFn) (staticChildren : List (GoString × Route))
      (dynamicChild : Option Route) (cacheRules : CacheRules)

def Route.handler : Route → Option HandlerFn
  | .mk h _ _ _ => h

def Route.staticChildren : Route → List (GoString × Route)
  | .mk _ cs _ _ => cs

def Route.dynamicChild : Route → Option Route
  | .mk _ _ d _ => d

def Route.cacheRules : Route → CacheRules
  | .mk _ _ _ ru => ru

/-- Embeds newRoute(): nil handler, empty child map, nil dynamic child,
zero-valued cacheRules. -/
def newRoute : Route := .mk none [] none ⟨0⟩

/-- Rules assignment, as done right after newRoute() in getOrCreateChild. -/
def Route.setCacheRules : Route → CacheRules → Route
  | .mk h cs d _, ru => .mk h cs d ru

/-- The decoded wildcard segment, the one-byte Go string ＂*＂. -/
def star : GoString := [⟨42, by omega⟩]

/-- Go map indexing staticChildren[segment]: the unique binding for the
key, if any (the embedding keeps keys unique, first match). -/
def findStatic : List (GoString × Route) → GoString → Option Route
  | [], _ => none
  | (k, c) :: rest, s => if k = s then some c else findStatic rest s

/-- Go map store staticChildren[segment] = child: replace the unique
binding if present, otherwise add one. -/
def setStatic : List (GoString × Route) → GoString → Route → List (GoString × Route)
  | [], s, c => [(s, c)]
  | (k, c0) :: rest, s, c =>
    if k = s then (s, c) :: rest else (k, c0) :: setStatic rest s c

/-- Embeds getOrCreateChild.  Go mutates the receiver and returns a
pointer to the child; the embedding returns (updated parent, child). -/
def getOrCreateChild (r : Route) (segment : GoString) : Route × Route :=
  if segment = [] then (r, r)
  else if segment = star then
    match r.dynamicChild with
    | some c => (r, c)
    | none =>
      let c := newRoute.setCacheRules r.cacheRules
      (.mk r.handler r.staticChildren (some c) r.cacheRules, c)
  else
    match findStatic r.staticChildren segment with
    | some c => (r, c)
    | none =>
      let c := newRoute.setCacheRules r.cacheRules
      (.mk r.handler (setStatic r.staticChildren segment c) r.dynamicChild r.cacheRules, c)

/-- The registration walk of Register: r = r.getOrCreateChild(p) for each
decoded segment, then r.handler = handler on the terminal node.  Go walks
with pointers and mutates in place; the embedding rebuilds the walked
path, writing the updated child back into its parent slot. -/
def registerSegs (r : Route) : List GoString → HandlerFn → Route
  | [], h => .mk (some h) r.staticChildren r.dynamicChild r.cacheRules
  | s :: rest, h =>
    if s = [] then registerSegs r rest h
    else if s = star then
      let c := (getOrCreateChild r s).2
      .mk r.handler r.staticChildren (some (registerSegs c rest h)) r.cacheRules
    else
      let c := (getOrCreateChild r s).2
      .mk r.handler (setStatic r.staticChildren s (registerSegs c rest h))
        r.dynamicChild r.cacheRules

/-- Embeds Register: percent-decode the pattern with fromPath (the same
decoder applied to request paths); on a decode error return with the trie
unchanged, otherwise walk/create nodes and set the handler at the end. -/
def Register (root : Route) (path : GoString) (h : HandlerFn) : Route :=
  match fromPath path with
  | none => root
  | some segments => registerSegs root segments h

/-- A sequence of Register calls applied to a root, as a program using
the registration API would issue them. -/
def registerAll (root : Route) : List (GoString × HandlerFn) → Route
  | [] => root
  | (path, hfn) :: rest => registerAll (Register root path hfn) rest

/-- Embeds lookup: walk from the root; skip empty segments; at each level
candidate starts as the dynamic child and is replaced by the static child
whose key equals the segment, if one exists; a nil candidate stops the
walk at the deepest node reached. -/
def lookup (r : Route) : List GoString → Route
  | [] => r
  | p :: rest =>
    if p = [] then lookup r rest
    else
      match (match findStatic r.staticChildren p with
             | some c => some c
             | none => r.dynamicChild) with
      | none => r
      | some candidate => lookup candidate rest

/-- Embeds cacheEntry: value is nil or a byte slice, expiry is an
absolute time.  The zero value has nil value and the zero time. -/
structure CacheEntry where
  value : Option GoString
  expiry : Int
deriving DecidableEq

/-- The cache map c.cache: canonical path key to entry, keys unique. -/
abbrev CacheState := List (GoString × CacheEntry)

/-- Go map read c.cache[k] (nil when the key is absent). -/
def lookupEntry : CacheState → GoString → Option CacheEntry
  | [], _ => none
  | (k0, e) :: rest, k => if k0 = k then some e else lookupEntry rest k

/-- Go map store c.cache[k] = e: replace the unique binding or add one. -/
def insertEntry : CacheState → GoString → CacheEntry → CacheState
  | [], k, e => [(k, e)]
  | (k0, e0) :: rest, k, e =>
    if k0 = k then (k, e) :: rest else (k0, e0) :: insertEntry rest k e

/-- Go delete(c.cache, k). -/
def eraseKey : CacheState → GoString → CacheState
  | [], _ => []
  | (k0, e0) :: rest, k =>
    if k0 = k then eraseKey rest k else (k0, e0) :: eraseKey rest k

/-- The two error shapes request can return: the handler error from a
failed synchronous population, or the errors.New value built when an
entry is found with a nil value. -/
inductive ReqErr where
  | handlerFailed (e : HErr)
  | cacheEmpty
deriving DecidableEq

/-- The observable result of one request call: the returned pair, or the
run-time panic a nil handler (or a nil entry pointer) causes. -/
inductive ReqOutcome where
  | ok (b : GoString)
  | fail (e : ReqErr)
  | panicked
deriving DecidableEq

/-- Result of one sequential run of request: the returned value or error,
the cache map afterwards, whether a refresh goroutine was spawned, and
whether the handler was invoked synchronously (instrumentation of the
populate branch). -/
structure ReqResult where
  outcome : ReqOutcome
  state : CacheState
  spawned : Bool
  invokedSync : Bool

/-- The read phase closing every non-failing run of request (lines
167-191 of cache.go): re-read the entry from the map, read its value
under the entry read-lock, return the cacheEmpty error on a nil value,
spawn a refresh goroutine when the expiry is strictly before now, and
return the value read.  A missing entry would make the Go code call
RLock on a nil pointer and panic. -/
def readPhase (st : CacheState) (p : List GoString) (now : Int)
    (invoked : Bool) : ReqResult :=
  match lookupEntry st (toCanonicalPath p) with
  | none => ⟨.panicked, st, false, invoked⟩
  | some entry =>
    match entry.value with
    | none => ⟨.fail .cacheEmpty, st, false, invoked⟩
    | some v =>
      if entry.expiry < now then ⟨.ok v, st, true, invoked⟩
      else ⟨.ok v, st, false, invoked⟩

/-- Embeds request, run sequentially from call to return.  On a miss a
zero-valued entry is put into the map first; then the handler is invoked
(a nil handler panics at the call, after the entry was inserted); a
handler error nils the value and deletes the entry, propagating the
error; a handler success stores the bytes and expiry = now + ttl and
falls through to the read phase.  On a hit the read phase runs directly.
All time.Now() calls inside the one run are modelled by the single
instant now. -/
def request (st : CacheState) (r : Route) (p : List GoString) (now : Int) : ReqResult :=
  match lookupEntry st (toCanonicalPath p) with
  | none =>
    let st1 := insertEntry st (toCanonicalPath p) ⟨none, 0⟩
    match r.handler with
    | none => ⟨.panicked, st1, false, false⟩
    | some h =>
      match h p with
      | (_, some e) =>
        ⟨.fail (.handlerFailed e), eraseKey (insertEntry st1 (toCanonicalPath p) ⟨none, 0⟩) (toCanonicalPath p), false, true⟩
      | (bs, none) =>
        readPhase (insertEntry st1 (toCanonicalPath p) ⟨bs, now + r.cacheRules.ttl⟩) p now true
  | some _ => readPhase st p now false

/-- The body of the refresh goroutine (lines 179-189 of cache.go), acting
on one entry: re-invoke the handler; on error keep the entry as it was
(the error is only logged); on success overwrite value and expiry. -/
def renewEntry (h : HandlerFn) (p : List GoString) (e : CacheEntry) (ttl now : Int) : CacheEntry :=
  match h p with
  | (_, some _) => e
  | (bs, none) => ⟨bs, now + ttl⟩

/-- The refresh goroutine lifted to the cache map.  The goroutine writes
through its captured entry pointer; an entry that spawns a refresh has a
non-nil value and such entries are never deleted from the map, so
updating the binding in place is faithful.  With no binding (or a nil
handler) there is nothing the sequential model can observe. -/
def refreshGo (st : CacheState) (r : Route) (p : List GoString) (now : Int) : CacheState :=
  match lookupEntry st (toCanonicalPath p), r.handler with
  | some e, some h =>
    insertEntry st (toCanonicalPath p) (renewEntry h p e r.cacheRules.ttl now)
  | _, _ => st

/-- The three ways ServeHTTP answers, plus the panic a nil handler
causes. -/
inductive ServeOutcome where
  | ok (body : GoString)
  | badRequest
  | internalError (e : ReqErr)
  | panicked
deriving DecidableEq

/-- Embeds ServeHTTP: decode the escaped path (400 on failure), look the
segments up in the trie, run request (500 on error), else 200 with the
returned bytes.  There is no handler-is-nil check between lookup and
request. -/
def ServeHTTP (st : CacheState) (root : Route) (rawPath : GoString) (now : Int) :
    ServeOutcome × CacheState :=
  match fromPath rawPath with
  | none => (.badRequest, st)
  | some p =>
    let res := request st (lookup root p) p now
    match res.outcome with
    | .panicked => (.panicked, res.state)
    | .fail e => (.internalError e, res.state)
    | .ok b => (.ok b, res.state)

/-- One completed top-level operation on the cache map: a full run of
request, or the execution of a spawned refresh goroutine. -/
inductive Step where
  | req (r : Route) (p : List GoString) (now : Int)
  | renew (r : Route) (p : List GoString) (now : Int)

/-- Effect of one completed operation on the cache map. -/
def execStep (st : CacheState) : Step → CacheState
  | .req r p now => (request st r p now).state
  | .renew r p now => refreshGo st r p now

/-- The cache map reached from the fresh, empty cache (New) after a
sequence of completed operations: a quiescent state in which no
population is in flight. -/
def runSteps (steps : List Step) : CacheState := steps.foldl execStep []

/-- A route fit for dispatch: it has a registered handler, and that
handler never returns a nil byte slice together with a nil error. -/
def GoodRoute (r : Route) : Prop :=
  ∃ h, r.handler = some h ∧ ∀ q bs, h q = (bs, none) → bs ≠ none

/-- A completed operation whose route is fit for dispatch. -/
def GoodStep : Step → Prop
  | .req r _ _ => GoodRoute r
  | .renew r _ _ => GoodRoute r

/-!
Interleaved model of request, for the concurrency claims.  Requests for
one fixed key (route r, decoded segments p) run as threads over a shared
configuration; each step is one lock-protected action of cache.go:

  start      the store-lock critical section, lines 143-148 or 163-164:
             Lock, check the map, on a miss create the zero entry and
             store it, Unlock (one atomic step since the store lock is
             held throughout and released before any handler call);
  popLock    entry.Lock() of line 149;
  popInvoke  the handler call of line 151 is in flight; the next step of
             the thread finishes it and performs lines 152-162 while
             still holding the entry lock, releasing it at the end;
  popDelete  the store-lock critical section of lines 155-157 (delete);
  readStore  the store read-lock section, lines 167-169: RLock, read the
             entry pointer, RUnlock (a nil pointer panics at line 170);
  readEntry  entry.RLock() of line 170;
  readValue  lines 171-191 under the read lock: read value and expiry,
             return cacheEmpty on nil, spawn a refresh goroutine when
             stale, release the read lock and return the value;
  refrLock / refrInvoke  the spawned goroutine of lines 179-189:
             entry.Lock(), the handler call in flight, then the write (on
             success) or no write (on error) and Unlock.

Entry objects live in a heap of identifiers so that a deleted entry and a
freshly created one for the same key are distinct, as the Go pointers
are.  popBegun counts how many times the synchronous population path has
begun a handler invocation.
-/

/-- Thread identifier in the interleaved model. -/
abbrev TId := Nat

/-- Entry identifier (a cacheEntry pointer) in the interleaved model. -/
abbrev EId := Nat

/-- A cacheEntry object together with the state of its RWMutex. -/
structure EntryObj where
  value : Option GoString
  expiry : Int
  writer : Option TId
  readers : List TId

/-- Program counter of a request thread. -/
inductive RPc where
  | start
  | popLock (e : EId)
  | popInvoke (e : EId)
  | popDelete (e : EId) (err : HErr)
  | readStore
  | readEntry (e : EId)
  | readValue (e : EId)
  | done (oc : ReqOutcome)
deriving DecidableEq

/-- Program counter of a spawned refresh goroutine. -/
inductive GPc where
  | refrLock (e : EId)
  | refrInvoke (e : EId)
  | refrDone
deriving DecidableEq

/-- A thread: a request (with the time it runs at) or a refresh
goroutine. -/
inductive TState where
  | req (pc : RPc) (now : Int)
  | refr (pc : GPc) (now : Int)
deriving DecidableEq

/-- Shared configuration: the map binding for the key, the heap of entry
objects, the threads, and the ghost population counter. -/
structure Conf where
  mapE : Option EId
  heap : EId → Option EntryObj
  nextE : EId
  threads : TId → Option TState
  nextT : TId
  popBegun : Nat

/-- Pointwise update of a partial function. -/
def updf {α : Type} (f : Nat → Option α) (i : Nat) (v : α) : Nat → Option α :=
  fun j => if j = i then some v else f j

/-- One atomic step of thread t; none when the thread is absent, done, or
blocked on a lock. -/
def step (h : HandlerFn) (p : List GoString) (ttl : Int) (c : Conf) (t : TId) : Option Conf :=
  match c.threads t with
  | none => none
  | some (.req .start now) =>
    match c.mapE with
    | none =>
      some { c with
        heap := updf c.heap c.nextE ⟨none, 0, none, []⟩,
        nextE := c.nextE + 1,
        mapE := some c.nextE,
        threads := updf c.threads t (.req (.popLock c.nextE) now) }
    | some _ =>
      some { c with
        threads := updf c.threads t (.req .readStore now) }
  | some (.req (.popLock e) now) =>
    match c.heap e with
    | none => none
    | some E =>
      if E.writer = none ∧ E.readers = [] then
        some { c with
          heap := updf c.heap e ({ E with writer := some t }),
          threads := updf c.threads t (.req (.popInvoke e) now),
          popBegun := c.popBegun + 1 }
      else none
  | some (.req (.popInvoke e) now) =>
    match c.heap e with
    | none => none
    | some E =>
      match h p with
      | (_, some err) =>
        some { c with
          heap := updf c.heap e ({ E with value := none, writer := none }),
          threads := updf c.threads t (.req (.popDelete e err) now) }
      | (bs, none) =>
        some { c with
          heap := updf c.heap e ({ E with value := bs, expiry := now + ttl, writer := none }),
          threads := updf c.threads t (.req .readStore now) }
  | some (.req (.popDelete _ err) now) =>
    some { c with
      mapE := none,
      threads := updf c.threads t (.req (.done (.fail (.handlerFailed err))) now) }
  | some (.req .readStore now) =>
    match c.mapE with
    | none =>
      some { c with
        threads := updf c.threads t (.req (.done .panicked) now) }
    | some e =>
      some { c with
        threads := updf c.threads t (.req (.readEntry e) now) }
  | some (.req (.readEntry e) now) =>
    match c.heap e with
    | none => none
    | some E =>
      if E.writer = none then
        some { c with
          heap := updf c.heap e ({ E with readers := t :: E.readers }),
          threads := updf c.threads t (.req (.readValue e) now) }
      else none
  | some (.req (.readValue e) now) =>
    match c.heap e with
    | none => none
    | some E =>
      match E.value with
      | none =>
        some { c with
          heap := updf c.heap e ({ E with readers := E.readers.erase t }),
          threads := updf c.threads t (.req (.done (.fail .cacheEmpty)) now) }
      | some v =>
        if E.expiry < now then
          some { c with
            heap := updf c.heap e ({ E with readers := E.readers.erase t }),
            threads := updf (updf c.threads t (.req (.done (.ok v)) now))
              c.nextT (.refr (.refrLock e) now),
            nextT := c.nextT + 1 }
        else
          some { c with
            heap := updf c.heap e ({ E with readers := E.readers.erase t }),
            threads := updf c.threads t (.req (.done (.ok v)) now) }
  | some (.req (.done _) _) => none
  | some (.refr (.refrLock e) now) =>
    match c.heap e with
    | none => none
    | some E =>
      if E.writer = none ∧ E.readers = [] then
        some { c with
          heap := updf c.heap e ({ E with writer := some t }),
          threads := updf c.threads t (.refr (.refrInvoke e) now) }
      else none
  | some (.refr (.refrInvoke e) now) =>
    match c.heap e with
    | none => none
    | some E =>
      match h p with
      | (_, some _) =>
        some { c with
          heap := updf c.heap e ({ E with writer := none }),
          threads := updf c.threads t (.refr .refrDone now) }
      | (bs, none) =>
        some { c with
          heap := updf c.heap e ({ E with value := bs, expiry := now + ttl, writer := none }),
          threads := updf c.threads t (.refr .refrDone now) }
  | some (.refr .refrDone _) => none

/-- Run a schedule; a blocked or impossible entry leaves the
configuration unchanged. -/
def run (h : HandlerFn) (p : List GoString) (ttl : Int) (c : Conf) (sched : List TId) : Conf :=
  sched.foldl (fun c2 t => (step h p ttl c2 t).getD c2) c

/-- Initial configuration: an empty map and heap, and one request thread
per element of nows, thread i running at time nows[i] — N concurrent
first-time requests for the key. -/
def initConf (nows : List Int) : Conf where
  mapE := none
  heap := fun _ => none
  nextE := 0
  threads := fun t => if ht : t < nows.length then some (.req .start (nows.get ⟨t, ht⟩)) else none
  nextT := nows.length
  popBegun := 0

/-- Reachability under some schedule. -/
def Reach (h : HandlerFn) (p : List GoString) (ttl : Int) (nows : List Int) (c : Conf) : Prop :=
  ∃ sched : List TId, run h p ttl (initConf nows) sched = c

/-- The entry whose handler invocation is in flight in this thread. -/
def inFlightTarget : TState → Option EId
  | .req (.popInvoke e) _ => some e
  | .refr (.refrInvoke e) _ => some e
  | _ => none

/-- The entry this thread is populating. -/
def popTarget : TState → Option EId
  | .req (.popLock e) _ => some e
  | .req (.popInvoke e) _ => some e
  | .req (.popDelete e _) _ => some e
  | _ => none

/-- The entry this refresh goroutine works on. -/
def refrTarget : TState → Option EId
  | .refr (.refrLock e) _ => some e
  | .refr (.refrInvoke e) _ => some e
  | _ => none

/-- Any entry id a thread holds in its program counter. -/
def anyTarget : TState → Option EId
  | .req (.popLock e) _ => some e
  | .req (.popInvoke e) _ => some e
  | .req (.popDelete e _) _ => some e
  | .req (.readEntry e) _ => some e
  | .req (.readValue e) _ => some e
  | .refr (.refrLock e) _ => some e
  | .refr (.refrInvoke e) _ => some e
  | _ => none

/-- Invariant: no node of the trie has a static child keyed by the
wildcard segment. -/
inductive NoStar : Route → Prop where
  | mk : ∀ {h : Option HandlerFn} {cs : List (GoString × Route)}
      {d : Option Route} {ru : CacheRules},
      (∀ kc ∈ cs, kc.1 ≠ star) →
      (∀ kc ∈ cs, NoStar kc.2) →
      (∀ c, d = some c → NoStar c) →
      NoStar (Route.mk h cs d ru)

/-- Safety invariant of the interleaved model: thread and entry
identifiers in use are bounded, allocated entries exist, a populating
thread owns the current binding and its entry value is still absent,
population and refresh of one entry never coexist and population is
unique, an in-flight handler call holds the entry write lock, and a
valued entry is the current binding. -/
structure Inv (c : Conf) : Prop where
  tBound : ∀ t, c.nextT ≤ t → c.threads t = none
  heapHi : ∀ e, c.nextE ≤ e → c.heap e = none
  heapLo : ∀ e, e < c.nextE → ∃ E, c.heap e = some E
  mapB : ∀ e, c.mapE = some e → e < c.nextE
  refB : ∀ t ts e, c.threads t = some ts → anyTarget ts = some e → e < c.nextE
  popMap : ∀ t ts e, c.threads t = some ts → popTarget ts = some e → c.mapE = some e
  popVal : ∀ t ts e E, c.threads t = some ts → popTarget ts = some e → c.heap e = some E →
    E.value = none
  popUniq : ∀ t1 t2 ts1 ts2 e, c.threads t1 = some ts1 → c.threads t2 = some ts2 →
    popTarget ts1 = some e → popTarget ts2 = some e → t1 = t2
  popNoRefr : ∀ t1 t2 ts1 ts2 e, c.threads t1 = some ts1 → c.threads t2 = some ts2 →
    popTarget ts1 = some e → refrTarget ts2 ≠ some e
  refrMap : ∀ t ts e, c.threads t = some ts → refrTarget ts = some e → c.mapE = some e
  own : ∀ t ts e E, c.threads t = some ts → inFlightTarget ts = some e → c.heap e = some E →
    E.writer = some t
  valMap : ∀ e E, c.heap e = some E → E.value ≠ none → c.mapE = some e

/-- Per-thread obligation under a handler that always succeeds with v: a
thread still before its handler call means no population has begun, the
delete path is unreachable, a reader of the store finds the binding
present, and a finished request holds v or the CacheEmpty error. -/
def TOk (v : GoString) (pb : Nat) (m : Option EId) : TState → Prop
  | .req (.popLock _) _ => pb = 0
  | .req (.popDelete _ _) _ => False
  | .req .readStore _ => m ≠ none
  | .req (.done oc) _ => oc = .ok v ∨ oc = .fail .cacheEmpty
  | _ => True

/-- Bounded-population bundle for a handler that always succeeds with v:
the synchronous population has begun at most once (and not at all while
the binding is still absent), every entry value is absent or v, and every
thread meets its TOk obligation. -/
structure InvB (v : GoString) (c : Conf) : Prop where
  begun : c.popBegun ≤ 1
  mapZero : c.mapE = none → c.popBegun = 0
  vals : ∀ e E, c.heap e = some E → E.value = none ∨ E.value = some v
  tok : ∀ t ts, c.threads t = some ts → TOk v c.popBegun c.mapE ts

example : fromPath [] = some [] := by decide
example : toCanonicalPath [] = [slash] := by decide
example : fromPath [slash] = some [] := by decide
-- "/a%2Fb" decodes to the single segment "a/b"
example : fromPath [47, 97, 37, 50, 70, 98] = some [[97, 47, 98]] := by decide
-- and canonicalizes back with the slash re-escaped
example : toCanonicalPath [[97, 47, 98]] = [47, 97, 37, 50, 70, 98] := by decide
-- "%2" is a malformed escape
example : fromPath [47, 37, 50] = none := by decide

-- miss then successful population: the value is returned and cached
example :
    request [] (.mk (some fun _ => (some [104], none)) [] none ⟨10⟩) [[97]] 5 =
      ⟨.ok [104], [([47, 97], ⟨some [104], 15⟩)], false, true⟩ := rfl

-- a nil byte slice stored with a nil error is served as cacheEmpty
example :
    (request [] (.mk (some fun _ => (none, none)) [] none ⟨10⟩) [[97]] 5).outcome =
      .fail .cacheEmpty := rfl

-- miss with a failing handler: the error propagates and the map is empty again
example :
    request [] (.mk (some fun _ => (none, some 7)) [] none ⟨10⟩) [[97]] 5 =
      ⟨.fail (.handlerFailed 7), [], false, true⟩ := rfl

-- a hit on a stale entry returns the old value and spawns a refresh
example :
    request [([47, 97], ⟨some [9], 3⟩)] (.mk (some fun _ => (some [8], none)) [] none ⟨10⟩)
        [[97]] 5 =
      ⟨.ok [9], [([47, 97], ⟨some [9], 3⟩)], true, false⟩ := rfl

-- a nil handler on a miss panics, after the empty entry was inserted
example :
    request [] (.mk none [] none ⟨10⟩) [[97]] 5 =
      ⟨.panicked, [([47, 97], ⟨none, 0⟩)], false, false⟩ := rfl

theorem ishex_upperhex : ∀ d : Fin 16, ishex (upperhex d) = true := by decide

theorem unhex_upperhex : ∀ d : Fin 16, unhex (upperhex d) = d.val := by decide

theorem upperhex_ne_slash : ∀ d : Fin 16, upperhex d ≠ slash := by decide

set_option maxRecDepth 4000 in
theorem not_shouldEscape_facts : ∀ c : Byte, shouldEscape c = false → c.val ≠ 37 ∧ c ≠ slash := by
  decide

theorem pathUnescape_not37 {c : Byte} (hc : ¬ c.val = 37) (rest : GoString) :
    pathUnescape (c :: rest) = (pathUnescape rest).map (fun t => c :: t) := by
  conv_lhs => rw [pathUnescape.eq_def]
  dsimp only
  rw [if_neg hc]

theorem pathUnescape_pathEscape : ∀ s : GoString, pathUnescape (pathEscape s) = some s := by
  intro s
  induction s with
  | nil => rfl
  | cons c rest ih =>
    by_cases hesc : shouldEscape c = true
    · rw [pathEscape, if_pos hesc, pathUnescape]
      simp only [Fin.val]
      rw [if_true]
      rw [dif_pos ⟨ishex_upperhex _, ishex_upperhex _⟩, ih]
      simp only [Option.map_some']
      congr 1
      apply List.cons_eq_cons.mpr
      refine ⟨?_, rfl⟩
      apply Fin.ext
      simp [unhex_upperhex]
      omega
    · rw [pathEscape, if_neg hesc,
        pathUnescape_not37 (not_shouldEscape_facts c (by simpa using hesc)).1, ih]
      rfl

theorem pathEscape_no_slash {s : GoString} {b : Byte} (hb : b ∈ pathEscape s) : b ≠ slash := by
  induction s with
  | nil => simp [pathEscape] at hb
  | cons c rest ih =>
    by_cases hesc : shouldEscape c = true
    · rw [pathEscape, if_pos hesc] at hb
      rcases List.mem_cons.mp hb with hbc | hb
      · subst hbc; decide
      · rcases List.mem_cons.mp hb with hbc | hb
        · subst hbc; exact upperhex_ne_slash _
        · rcases List.mem_cons.mp hb with hbc | hb
          · subst hbc; exact upperhex_ne_slash _
          · exact ih hb
    · rw [pathEscape, if_neg hesc] at hb
      rcases List.mem_cons.mp hb with hbc | hb
      · subst hbc; exact (not_shouldEscape_facts _ (by simpa using hesc)).2
      · exact ih hb

theorem pathEscape_ne_nil {s : GoString} (hs : s ≠ []) : pathEscape s ≠ [] := by
  cases s with
  | nil => exact absurd rfl hs
  | cons c rest =>
    rw [pathEscape]
    split <;> simp

theorem pathUnescape_cons_ne_nil {c : Byte} {s d : GoString}
    (h : pathUnescape (c :: s) = some d) : d ≠ [] := by
  by_cases h37 : c.val = 37
  · rw [pathUnescape.eq_def] at h
    dsimp only at h
    rw [if_pos h37] at h
    match s with
    | [] => exact absurd h (by simp)
    | [h1] => exact absurd h (by simp)
    | h1 :: h2 :: rest2 =>
      dsimp only at h
      by_cases hhex : ishex h1 = true ∧ ishex h2 = true
      · rw [dif_pos hhex] at h
        rcases Option.map_eq_some'.mp h with ⟨t, _, ht⟩
        rw [show d = _ :: t from ht.symm]
        simp
      · rw [dif_neg hhex] at h
        exact absurd h (by simp)
  · rw [pathUnescape_not37 h37] at h
    rcases Option.map_eq_some'.mp h with ⟨t, _, ht⟩
    rw [show d = c :: t from ht.symm]
    simp

theorem decodeSegments_map_escape (S : List GoString) (hS : ∀ s ∈ S, s ≠ []) :
    decodeSegments (S.map pathEscape) = some S := by
  induction S with
  | nil => rfl
  | cons s S2 ih =>
    rw [List.map_cons]
    conv_lhs => rw [decodeSegments.eq_def]
    dsimp only
    rw [if_neg (pathEscape_ne_nil (hS s (by simp))), pathUnescape_pathEscape s]
    dsimp only
    rw [ih (fun x hx => hS x (List.mem_cons_of_mem _ hx))]
    rfl

theorem decodeSegments_nonempty {parts : List GoString} {S : List GoString}
    (h : decodeSegments parts = some S) : ∀ s ∈ S, s ≠ [] := by
  induction parts generalizing S with
  | nil =>
    rw [show decodeSegments [] = some [] from rfl] at h
    injection h with h
    subst h
    simp
  | cons part rest ih =>
    rw [decodeSegments.eq_def] at h
    dsimp only at h
    by_cases hp : part = []
    · rw [if_pos hp] at h
      exact ih h
    · rw [if_neg hp] at h
      cases hu : pathUnescape part with
      | none => rw [hu] at h; exact absurd h (by simp)
      | some d =>
        rw [hu] at h
        dsimp only at h
        rcases Option.map_eq_some'.mp h with ⟨S2, hS2, hcons⟩
        subst hcons
        intro s hs
        rcases List.mem_cons.mp hs with hsd | hs2
        · subst hsd
          cases part with
          | nil => exact absurd rfl hp
          | cons c s0 => exact pathUnescape_cons_ne_nil hu
        · exact ih hS2 s hs2

/-- C4: a segment sequence produced by fromPath decodes back to itself
from its canonical path: fromPath (toCanonicalPath S) succeeds and equals
S, however the original path was percent-escaped. -/
theorem C4_canonical_roundtrip (raw : GoString) (S : List GoString)
    (h : fromPath raw = some S) :
    fromPath (toCanonicalPath S) = some S := by
  have hne : ∀ s ∈ S, s ≠ [] := decodeSegments_nonempty h
  have hfilter : S.filter (fun s => !s.isEmpty) = S := by
    apply List.filter_eq_self.mpr
    intro s hs
    simpa [List.isEmpty_iff] using hne s hs
  unfold fromPath toCanonicalPath
  rw [hfilter]
  cases S with
  | nil => rfl
  | cons s0 S2 =>
    have hsplit : (slash :: List.intercalate [slash] ((s0 :: S2).map pathEscape)).splitOn slash
        = [] :: (s0 :: S2).map pathEscape := by
      have hform : slash :: List.intercalate [slash] ((s0 :: S2).map pathEscape) =
          List.intercalate [slash] ([] :: (s0 :: S2).map pathEscape) := by
        simp [List.intercalate, List.intersperse_cons_cons]
      rw [hform]
      apply List.splitOn_intercalate
      · intro l hl hmem
        rcases List.mem_cons.mp hl with hnil | hl2
        · subst hnil; simp at hmem
        · rcases List.mem_map.mp hl2 with ⟨s, _, hes⟩
          subst hes
          exact pathEscape_no_slash hmem rfl
      · simp
    rw [hsplit]
    conv_lhs => rw [decodeSegments.eq_def]
    dsimp only
    rw [if_pos rfl]
    exact decodeSegments_map_escape _ hne


theorem C4_witness :
    fromPath (toCanonicalPath [[97, 47, 98]]) = some [[97, 47, 98]] := by
  exact C4_canonical_roundtrip [47, 97, 37, 50, 70, 98] [[97, 47, 98]] (by decide)

/-- C1: the code has no NotFound path.  With the pattern /a/b registered,
the request path /a decodes, lookup stops at the intermediate node for a,
whose handler is nil; ServeHTTP then runs request, which inserts an empty
entry into the cache store and calls the nil handler, panicking, instead
of failing with NotFound before touching the store. -/
theorem C1_no_notfound_path :
    (lookup (Register (newRoute.setCacheRules ⟨5⟩) [47, 97, 47, 98]
        (fun _ => (some [104], none))) [[97]]).handler = none ∧
    ServeHTTP [] (Register (newRoute.setCacheRules ⟨5⟩) [47, 97, 47, 98]
        (fun _ => (some [104], none))) [47, 97] 100 =
      (.panicked, [([47, 97], ⟨none, 0⟩)]) := ⟨rfl, rfl⟩

theorem findStatic_mem {cs : List (GoString × Route)} {s : GoString} {c : Route}
    (hf : findStatic cs s = some c) : (s, c) ∈ cs := by
  induction cs with
  | nil => simp [findStatic] at hf
  | cons kc0 rest ih =>
    obtain ⟨k0, c0⟩ := kc0
    by_cases hk : k0 = s
    · subst hk
      simp [findStatic] at hf
      simp [hf]
    · simp [findStatic, hk] at hf
      exact List.mem_cons_of_mem _ (ih hf)

theorem mem_setStatic {cs : List (GoString × Route)} {s : GoString} {c : Route} {kc}
    (hm : kc ∈ setStatic cs s c) : kc ∈ cs ∨ kc = (s, c) := by
  induction cs with
  | nil => simpa [setStatic] using hm
  | cons kc0 rest ih =>
    obtain ⟨k0, c0⟩ := kc0
    by_cases hk : k0 = s
    · simp only [setStatic, if_pos hk, List.mem_cons] at hm
      rcases hm with h | h
      · right; exact h
      · left; exact List.mem_cons_of_mem _ h
    · simp only [setStatic, if_neg hk, List.mem_cons] at hm
      rcases hm with h | h
      · left; simp [h]
      · rcases ih h with h2 | h2
        · left; exact List.mem_cons_of_mem _ h2
        · right; exact h2

theorem registerSegs_star (r : Route) (rest : List GoString) (hfn : HandlerFn) :
    registerSegs r (star :: rest) hfn =
      .mk r.handler r.staticChildren
        (some (registerSegs (getOrCreateChild r star).2 rest hfn)) r.cacheRules := by
  simp only [registerSegs, if_neg (by decide : star ≠ ([] : GoString)), if_pos rfl,
    eq_self_iff_true, if_true]

theorem registerSegs_static (r : Route) (s : GoString) (rest : List GoString)
    (hfn : HandlerFn) (hempty : s ≠ []) (hstar : s ≠ star) :
    registerSegs r (s :: rest) hfn =
      .mk r.handler
        (setStatic r.staticChildren s (registerSegs (getOrCreateChild r s).2 rest hfn))
        r.dynamicChild r.cacheRules := by
  simp only [registerSegs, if_neg hempty, if_neg hstar]

theorem getOrCreateChild_child {r : Route} {s : GoString} (hempty : s ≠ [])
    (hr : NoStar r) : NoStar (getOrCreateChild r s).2 := by
  cases hr with
  | mk hkeys hkids hdyn =>
    rename_i h0 cs d ru0
    by_cases hstar : s = star
    · subst hstar
      cases d with
      | none =>
        simp only [getOrCreateChild, if_neg hempty, if_pos rfl, Route.dynamicChild]
        exact .mk (by simp) (by simp) (by simp)
      | some c =>
        simp only [getOrCreateChild, if_neg hempty, if_pos rfl, Route.dynamicChild]
        exact hdyn c rfl
    · simp only [getOrCreateChild, if_neg hempty, if_neg hstar, Route.staticChildren]
      cases hf : findStatic cs s with
      | none =>
        simp only [hf]
        exact .mk (by simp) (by simp) (by simp)
      | some c =>
        simp only [hf]
        exact hkids _ (findStatic_mem hf)

theorem NoStar_registerSegs {r : Route} (segs : List GoString) (hfn : HandlerFn)
    (hr : NoStar r) : NoStar (registerSegs r segs hfn) := by
  induction segs generalizing r with
  | nil =>
    cases hr with
    | mk hkeys hkids hdyn => exact .mk hkeys hkids hdyn
  | cons s rest ih =>
    by_cases hempty : s = []
    · subst hempty
      simpa [registerSegs] using ih hr
    · have hchild := ih (getOrCreateChild_child hempty hr)
      cases hr with
      | mk hkeys hkids hdyn =>
        by_cases hstar : s = star
        · subst hstar
          rw [registerSegs_star]
          exact .mk hkeys hkids
            (by intro c0 hc0; injection hc0 with hc0; exact hc0 ▸ hchild)
        · rw [registerSegs_static _ _ _ _ hempty hstar]
          refine .mk ?_ ?_ hdyn
          · intro kc hm
            rcases mem_setStatic hm with h | h
            · exact hkeys _ h
            · rw [h]; exact hstar
          · intro kc hm
            rcases mem_setStatic hm with h | h
            · exact hkids _ h
            · rw [h]; exact hchild

theorem NoStar_Register {r : Route} (path : GoString) (hfn : HandlerFn)
    (hr : NoStar r) : NoStar (Register r path hfn) := by
  unfold Register
  cases fromPath path with
  | none => exact hr
  | some segments => exact NoStar_registerSegs segments hfn hr

theorem NoStar_registerAll {r : Route} (regs : List (GoString × HandlerFn))
    (hr : NoStar r) : NoStar (registerAll r regs) := by
  induction regs generalizing r with
  | nil => exact hr
  | cons reg rest ih =>
    obtain ⟨path, hfn⟩ := reg
    exact ih (NoStar_Register path hfn hr)

/-- C10: Register percent-decodes the pattern with fromPath, the decoder
also applied to request paths, so the escaped pattern segment %2A decodes
to the wildcard and registers the dynamic child (first conjunct, on the
pattern /%2A); consequently a trie built from a fresh root by any
sequence of Register calls has no static child keyed by the wildcard
segment anywhere (second conjunct). -/
theorem C10_wildcard_never_static (ru : CacheRules) (hfn : HandlerFn)
    (regs : List (GoString × HandlerFn)) :
    Register (newRoute.setCacheRules ru) [47, 37, 50, 65] hfn =
      Route.mk none [] (some (Route.mk (some hfn) [] none ru)) ru ∧
    NoStar (registerAll (newRoute.setCacheRules ru) regs) := by
  constructor
  · rfl
  · exact NoStar_registerAll regs (.mk (by simp) (by simp) (by simp))

theorem lookupEntry_eraseKey (st : CacheState) (k : GoString) :
    lookupEntry (eraseKey st k) k = none := by
  induction st with
  | nil => rfl
  | cons kv rest ih =>
    obtain ⟨k0, e0⟩ := kv
    by_cases hk : k0 = k <;> simp [eraseKey, lookupEntry, hk, ih]

/-- C5: at a node with both a static child for a literal segment and a
dynamic child, looking up that literal segment always descends into the
static child's subtree, never into the dynamic one. -/
theorem C5_static_shadows_dynamic (r : Route) (s : GoString) (c d : Route)
    (rest : List GoString) (hs : s ≠ [])
    (hstat : findStatic r.staticChildren s = some c)
    (hdyn : r.dynamicChild = some d) :
    lookup r (s :: rest) = lookup c rest := by
  simp only [lookup]
  rw [if_neg hs, hstat]

theorem C5_witness :
    lookup (Route.mk none [([97], Route.mk none [] none ⟨1⟩)]
        (some (Route.mk none [] none ⟨2⟩)) ⟨0⟩) [[97]] =
      Route.mk none [] none ⟨1⟩ := by
  exact C5_static_shadows_dynamic _ [97] (Route.mk none [] none ⟨1⟩)
    (Route.mk none [] none ⟨2⟩) [] (by decide) rfl rfl

/-- C8: when getOrCreateChild creates a child (static or dynamic) the
child's cacheRules are copied from the parent at that moment; an existing
child is returned exactly as it is, its rules never re-read from the
parent, so changing a parent's policy after a child exists does not
change the child's policy. -/
theorem C8_policy_snapshot (r : Route) (s : GoString) (hs : s ≠ []) :
    (s = star → r.dynamicChild = none →
      (getOrCreateChild r s).2 = newRoute.setCacheRules r.cacheRules) ∧
    (∀ c, s = star → r.dynamicChild = some c → (getOrCreateChild r s).2 = c) ∧
    (s ≠ star → findStatic r.staticChildren s = none →
      (getOrCreateChild r s).2 = newRoute.setCacheRules r.cacheRules) ∧
    (∀ c, s ≠ star → findStatic r.staticChildren s = some c →
      (getOrCreateChild r s).2 = c) ∧
    (newRoute.setCacheRules r.cacheRules).cacheRules = r.cacheRules := by
  refine ⟨?_, ?_, ?_, ?_, rfl⟩ <;> intros <;> simp_all [getOrCreateChild]

theorem C8_witness :
    (getOrCreateChild (Route.mk none [([97], Route.mk none [] none ⟨3⟩)] none ⟨9⟩) [97]).2 =
      Route.mk none [] none ⟨3⟩ := by
  exact (C8_policy_snapshot (Route.mk none [([97], Route.mk none [] none ⟨3⟩)] none ⟨9⟩)
    [97] (by decide)).2.2.2.1 _ (by decide) rfl

/-- C7: when the background refresh runs and the handler returns an
error, the entry is left exactly unchanged; the fields are overwritten
exactly when the handler succeeds. -/
theorem C7_refresh_failure_frame (h : HandlerFn) (p : List GoString) (e : CacheEntry)
    (ttl now : Int) :
    (∀ bs err, h p = (bs, some err) → renewEntry h p e ttl now = e) ∧
    (∀ bs, h p = (bs, none) → renewEntry h p e ttl now = ⟨bs, now + ttl⟩) := by
  constructor <;> intros <;> simp_all [renewEntry]

theorem C7_witness :
    renewEntry (fun _ => (some [1], some 5)) [[97]] ⟨some [9], 3⟩ 10 100 = ⟨some [9], 3⟩ := by
  exact (C7_refresh_failure_frame (fun _ => (some [1], some 5)) [[97]]
    ⟨some [9], 3⟩ 10 100).1 (some [1]) 5 rfl

/-- C2: when the entry for the key already exists, the synchronous result
of request is fixed by the entry's state: nil value gives the retryable
cacheEmpty error; a present but expired value is returned immediately
(with a refresh spawned); a fresh value is returned with no further
action. -/
theorem C2_hit_semantics (st : CacheState) (r : Route) (p : List GoString) (now : Int)
    (entry : CacheEntry) (hhit : lookupEntry st (toCanonicalPath p) = some entry) :
    (entry.value = none → request st r p now = ⟨.fail .cacheEmpty, st, false, false⟩) ∧
    (∀ v, entry.value = some v → entry.expiry < now →
      request st r p now = ⟨.ok v, st, true, false⟩) ∧
    (∀ v, entry.value = some v → ¬ entry.expiry < now →
      request st r p now = ⟨.ok v, st, false, false⟩) := by
  have hreq : request st r p now = readPhase st p now false := by
    simp only [request, hhit]
  refine ⟨fun hnone => ?_, fun v hv hstale => ?_, fun v hv hfresh => ?_⟩
  · rw [hreq]; simp only [readPhase, hhit, hnone]
  · rw [hreq]; simp only [readPhase, hhit, hv]; rw [if_pos hstale]
  · rw [hreq]; simp only [readPhase, hhit, hv]; rw [if_neg hfresh]

theorem C2_witness :
    request [([47, 97], ⟨some [9], 3⟩)] (Route.mk none [] none ⟨0⟩) [[97]] 5 =
      ⟨.ok [9], [([47, 97], ⟨some [9], 3⟩)], true, false⟩ := by
  exact (C2_hit_semantics [([47, 97], ⟨some [9], 3⟩)] (Route.mk none [] none ⟨0⟩)
    [[97]] 5 ⟨some [9], 3⟩ rfl).2.1 [9] rfl (by decide)

/-- C3: when the first synchronous population of a key fails, request
deletes the freshly created entry and propagates the handler error, so
the map has no entry for the key afterwards and a subsequent request for
it invokes the handler afresh. -/
theorem C3_rollback (st : CacheState) (r : Route) (p : List GoString) (now now2 : Int)
    (h : HandlerFn) (bs : Option GoString) (e : HErr)
    (hmiss : lookupEntry st (toCanonicalPath p) = none)
    (hh : r.handler = some h)
    (herr : h p = (bs, some e)) :
    (request st r p now).outcome = .fail (.handlerFailed e) ∧
    lookupEntry (request st r p now).state (toCanonicalPath p) = none ∧
    (request (request st r p now).state r p now2).invokedSync = true := by
  have hst : (request st r p now).state =
      eraseKey (insertEntry (insertEntry st (toCanonicalPath p) ⟨none, 0⟩)
        (toCanonicalPath p) ⟨none, 0⟩) (toCanonicalPath p) := by
    simp only [request, hmiss, hh, herr]
  have hgone : lookupEntry (request st r p now).state (toCanonicalPath p) = none := by
    rw [hst]; exact lookupEntry_eraseKey _ _
  have hinvoke : ∀ st2, lookupEntry st2 (toCanonicalPath p) = none →
      (request st2 r p now2).invokedSync = true := by
    intro st2 h2
    simp only [request, h2, hh, herr]
  refine ⟨?_, hgone, hinvoke _ hgone⟩
  simp only [request, hmiss, hh, herr]

theorem C3_witness :
    (request [] (Route.mk (some fun _ => (none, some 7)) [] none ⟨10⟩) [[97]] 5).outcome =
        .fail (.handlerFailed 7) ∧
    lookupEntry (request [] (Route.mk (some fun _ => (none, some 7)) [] none ⟨10⟩)
        [[97]] 5).state (toCanonicalPath [[97]]) = none ∧
    (request (request [] (Route.mk (some fun _ => (none, some 7)) [] none ⟨10⟩) [[97]] 5).state
        (Route.mk (some fun _ => (none, some 7)) [] none ⟨10⟩) [[97]] 6).invokedSync = true := by
  exact C3_rollback [] (Route.mk (some fun _ => (none, some 7)) [] none ⟨10⟩)
    [[97]] 5 6 (fun _ => (none, some 7)) none 7 rfl rfl rfl

theorem lookupEntry_insertEntry (st : CacheState) (k k2 : GoString) (e : CacheEntry) :
    lookupEntry (insertEntry st k e) k2 = if k = k2 then some e else lookupEntry st k2 := by
  induction st with
  | nil => by_cases hk : k = k2 <;> simp [insertEntry, lookupEntry, hk]
  | cons kv rest ih =>
    obtain ⟨k0, e0⟩ := kv
    by_cases h0 : k0 = k
    · subst h0
      by_cases hk : k0 = k2 <;> simp [insertEntry, lookupEntry, hk]
    · by_cases hk : k0 = k2
      · subst hk
        have hne : ¬ k = k0 := fun hkk => h0 hkk.symm
        simp [insertEntry, lookupEntry, h0, hne]
      · simp [insertEntry, lookupEntry, h0, hk, ih]

theorem lookupEntry_eraseKey_ne (st : CacheState) (k k2 : GoString) :
    lookupEntry (eraseKey st k) k2 = if k = k2 then none else lookupEntry st k2 := by
  by_cases hk : k = k2
  · subst hk
    rw [if_pos rfl]
    exact lookupEntry_eraseKey st k
  · rw [if_neg hk]
    induction st with
    | nil => rfl
    | cons kv rest ih =>
      obtain ⟨k0, e0⟩ := kv
      by_cases h0 : k0 = k
      · subst h0
        simp [eraseKey, lookupEntry, hk, ih]
      · by_cases hk2 : k0 = k2 <;>
          simp [eraseKey, lookupEntry, h0, hk2, ih,
            show ¬ k2 = k from fun hkk => hk hkk.symm]

theorem readPhase_state (st : CacheState) (p : List GoString) (now : Int) (i : Bool) :
    (readPhase st p now i).state = st := by
  unfold readPhase
  split
  · rfl
  · split
    · rfl
    · split <;> rfl

theorem C6_inv_step {st : CacheState} (s : Step)
    (hst : ∀ k e, lookupEntry st k = some e → e.value ≠ none) (hgood : GoodStep s) :
    ∀ k e, lookupEntry (execStep st s) k = some e → e.value ≠ none := by
  cases s with
  | req r p now =>
    obtain ⟨h, hh, hnn⟩ := hgood
    intro k e he
    simp only [execStep] at he
    cases hl : lookupEntry st (toCanonicalPath p) with
    | some entry =>
      have hr : request st r p now = readPhase st p now false := by
        simp only [request, hl]
      rw [hr, readPhase_state] at he
      exact hst k e he
    | none =>
      cases hhp : h p with
      | mk bs err =>
        cases err with
        | some e2 =>
          have hr : (request st r p now).state =
              eraseKey (insertEntry (insertEntry st (toCanonicalPath p) ⟨none, 0⟩)
                (toCanonicalPath p) ⟨none, 0⟩) (toCanonicalPath p) := by
            simp only [request, hl, hh, hhp]
          rw [hr, lookupEntry_eraseKey_ne] at he
          by_cases hkk : toCanonicalPath p = k
          · rw [if_pos hkk] at he
            exact absurd he (by simp)
          · rw [if_neg hkk, lookupEntry_insertEntry, if_neg hkk,
              lookupEntry_insertEntry, if_neg hkk] at he
            exact hst k e he
        | none =>
          have hr : (request st r p now).state =
              insertEntry (insertEntry st (toCanonicalPath p) ⟨none, 0⟩)
                (toCanonicalPath p) ⟨bs, now + r.cacheRules.ttl⟩ := by
            simp only [request, hl, hh, hhp, readPhase_state]
          rw [hr, lookupEntry_insertEntry] at he
          by_cases hkk : toCanonicalPath p = k
          · rw [if_pos hkk] at he
            injection he with he
            rw [show e = (⟨bs, now + r.cacheRules.ttl⟩ : CacheEntry) from he.symm]
            exact hnn p bs hhp
          · rw [if_neg hkk, lookupEntry_insertEntry, if_neg hkk] at he
            exact hst k e he
  | renew r p now =>
    obtain ⟨h, hh, hnn⟩ := hgood
    intro k e he
    simp only [execStep] at he
    rw [refreshGo.eq_def] at he
    cases hl : lookupEntry st (toCanonicalPath p) with
    | none =>
      simp only [hl, hh] at he
      exact hst k e he
    | some entry =>
      simp only [hl, hh] at he
      rw [lookupEntry_insertEntry] at he
      by_cases hkk : toCanonicalPath p = k
      · rw [if_pos hkk] at he
        injection he with he
        cases hhp : h p with
        | mk bs err =>
          cases err with
          | some e2 =>
            have : renewEntry h p entry r.cacheRules.ttl now = entry := by
              unfold renewEntry; rw [hhp]
            rw [this] at he
            rw [show e = entry from he.symm]
            exact hst _ entry hl
          | none =>
            have : renewEntry h p entry r.cacheRules.ttl now =
                ⟨bs, now + r.cacheRules.ttl⟩ := by
              unfold renewEntry; rw [hhp]
            rw [this] at he
            rw [show e = (⟨bs, now + r.cacheRules.ttl⟩ : CacheEntry) from he.symm]
            exact hnn p bs hhp
      · rw [if_neg hkk] at he
        exact hst k e he

theorem C6_inv_run (steps : List Step) : ∀ st : CacheState, (∀ s ∈ steps, GoodStep s) →
    (∀ k e, lookupEntry st k = some e → e.value ≠ none) →
    ∀ k e, lookupEntry (steps.foldl execStep st) k = some e → e.value ≠ none := by
  induction steps with
  | nil => intro st _ hst; simpa using hst
  | cons s rest ih =>
    intro st hgood hst
    simp only [List.foldl_cons]
    exact ih _ (fun x hx => hgood x (List.mem_cons_of_mem _ hx))
      (C6_inv_step s hst (hgood s (List.mem_cons_self _ _)))

/-- C6 counterexample: a handler that succeeds with a nil byte slice
leaves an entry whose value is absent in the quiescent state after the
request completed, so the invariant fails as stated. -/
theorem C6_counterexample :
    ¬ (∀ k e, lookupEntry (runSteps
        [Step.req (.mk (some fun _ => (none, none)) [] none ⟨10⟩) [[97]] 0]) k = some e →
      e.value ≠ none) := by
  intro hall
  exact hall [47, 97] ⟨none, 10⟩ rfl rfl

/-- C6 (amended): provided every completed operation targets a route with
a registered handler that never succeeds with a nil byte slice, every
entry present in a quiescent reachable cache map has a present value. -/
theorem C6_value_present_amended (steps : List Step) (hgood : ∀ s ∈ steps, GoodStep s) :
    ∀ k e, lookupEntry (runSteps steps) k = some e → e.value ≠ none := by
  unfold runSteps
  exact C6_inv_run steps [] hgood (by intro k e he; exact absurd he (by simp [lookupEntry]))

theorem C6_witness : (⟨some [104], 10⟩ : CacheEntry).value ≠ none := by
  refine C6_value_present_amended
    [Step.req (.mk (some fun _ => (some [104], none)) [] none ⟨10⟩) [[97]] 0]
    ?_ [47, 97] ⟨some [104], 10⟩ rfl
  intro s hs
  rw [List.mem_singleton.mp hs]
  refine ⟨fun _ => (some [104], none), rfl, ?_⟩
  intro q bs hq
  injection hq with h1 h2
  rw [show bs = some [104] from h1.symm]
  simp

theorem updf_eq {α : Type} (f : Nat → Option α) (i : Nat) (v : α) : updf f i v i = some v := by
  simp [updf]

theorem updf_ne {α : Type} (f : Nat → Option α) {i j : Nat} (v : α) (hne : j ≠ i) :
    updf f i v j = f j := by
  simp [updf, hne]

theorem anyTarget_pop {ts : TState} {e : EId} (hp : popTarget ts = some e) :
    anyTarget ts = some e := by
  cases ts with
  | req pc now => cases pc <;> simp_all [popTarget, anyTarget]
  | refr pc now => cases pc <;> simp_all [popTarget, anyTarget]

theorem anyTarget_refr {ts : TState} {e : EId} (hp : refrTarget ts = some e) :
    anyTarget ts = some e := by
  cases ts with
  | req pc now => cases pc <;> simp_all [refrTarget, anyTarget]
  | refr pc now => cases pc <;> simp_all [refrTarget, anyTarget]

theorem anyTarget_ifl {ts : TState} {e : EId} (hp : inFlightTarget ts = some e) :
    anyTarget ts = some e := by
  cases ts with
  | req pc now => cases pc <;> simp_all [inFlightTarget, anyTarget]
  | refr pc now => cases pc <;> simp_all [inFlightTarget, anyTarget]

theorem thread_lt_nextT {c : Conf} (hinv : Inv c) {t : TId} {ts : TState}
    (hts : c.threads t = some ts) : t < c.nextT := by
  rcases Nat.lt_or_ge t c.nextT with hlt | hge
  · exact hlt
  · rw [hinv.tBound t hge] at hts; exact absurd hts (by simp)

theorem Inv_retarget {c : Conf} (hinv : Inv c) (t : TId) {ts : TState}
    (hts : c.threads t = some ts) {ns : TState}
    (hpop : ∀ e2, ¬ popTarget ns = some e2)
    (hrefr : ∀ e2, ¬ refrTarget ns = some e2)
    (hifl : ∀ e2, ¬ inFlightTarget ns = some e2)
    (hany : ∀ e2, anyTarget ns = some e2 → e2 < c.nextE) :
    Inv { c with threads := updf c.threads t ns } := by
  refine ⟨?_, hinv.heapHi, hinv.heapLo, hinv.mapB, ?_, ?_, ?_, ?_, ?_, ?_, ?_, hinv.valMap⟩ <;>
    dsimp only
  · intro t2 h2
    have htn : t2 ≠ t := by
      intro hEq
      subst hEq
      rw [hinv.tBound t2 h2] at hts
      exact absurd hts (by simp)
    rw [updf_ne _ _ htn]
    exact hinv.tBound t2 h2
  · intro t2 ts2 e2 ht2 hat
    by_cases h2t : t2 = t
    · subst h2t
      rw [updf_eq] at ht2
      injection ht2 with ht2
      subst ht2
      exact hany e2 hat
    · rw [updf_ne _ _ h2t] at ht2
      exact hinv.refB t2 ts2 e2 ht2 hat
  · intro t2 ts2 e2 ht2 hat
    by_cases h2t : t2 = t
    · subst h2t
      rw [updf_eq] at ht2
      injection ht2 with ht2
      subst ht2
      exact absurd hat (hpop e2)
    · rw [updf_ne _ _ h2t] at ht2
      exact hinv.popMap t2 ts2 e2 ht2 hat
  · intro t2 ts2 e2 E ht2 hat hE
    by_cases h2t : t2 = t
    · subst h2t
      rw [updf_eq] at ht2
      injection ht2 with ht2
      subst ht2
      exact absurd hat (hpop e2)
    · rw [updf_ne _ _ h2t] at ht2
      exact hinv.popVal t2 ts2 e2 E ht2 hat hE
  · intro t1 t2 ts1 ts2 e2 ht1 ht2 hp1 hp2
    by_cases h1t : t1 = t
    · subst h1t
      rw [updf_eq] at ht1
      injection ht1 with ht1
      subst ht1
      exact absurd hp1 (hpop e2)
    · by_cases h2t : t2 = t
      · subst h2t
        rw [updf_eq] at ht2
        injection ht2 with ht2
        subst ht2
        exact absurd hp2 (hpop e2)
      · rw [updf_ne _ _ h1t] at ht1
        rw [updf_ne _ _ h2t] at ht2
        exact hinv.popUniq t1 t2 ts1 ts2 e2 ht1 ht2 hp1 hp2
  · intro t1 t2 ts1 ts2 e2 ht1 ht2 hp1
    by_cases h1t : t1 = t
    · subst h1t
      rw [updf_eq] at ht1
      injection ht1 with ht1
      subst ht1
      exact absurd hp1 (hpop e2)
    · by_cases h2t : t2 = t
      · subst h2t
        rw [updf_eq] at ht2
        injection ht2 with ht2
        subst ht2
        exact hrefr e2
      · rw [updf_ne _ _ h1t] at ht1
        rw [updf_ne _ _ h2t] at ht2
        exact hinv.popNoRefr t1 t2 ts1 ts2 e2 ht1 ht2 hp1
  · intro t2 ts2 e2 ht2 hat
    by_cases h2t : t2 = t
    · subst h2t
      rw [updf_eq] at ht2
      injection ht2 with ht2
      subst ht2
      exact absurd hat (hrefr e2)
    · rw [updf_ne _ _ h2t] at ht2
      exact hinv.refrMap t2 ts2 e2 ht2 hat
  · intro t2 ts2 e2 E ht2 hat hE
    by_cases h2t : t2 = t
    · subst h2t
      rw [updf_eq] at ht2
      injection ht2 with ht2
      subst ht2
      exact absurd hat (hifl e2)
    · rw [updf_ne _ _ h2t] at ht2
      exact hinv.own t2 ts2 e2 E ht2 hat hE

theorem Inv_readers {c : Conf} (hinv : Inv c) (t : TId) {ts : TState}
    (hts : c.threads t = some ts) {e : EId} {E : EntryObj} (hE : c.heap e = some E)
    (het : anyTarget ts = some e) (rs : List TId) {ns : TState}
    (hpop : ∀ e2, ¬ popTarget ns = some e2)
    (hrefr : ∀ e2, ¬ refrTarget ns = some e2)
    (hifl : ∀ e2, ¬ inFlightTarget ns = some e2)
    (hany : ∀ e2, anyTarget ns = some e2 → e2 = e) :
    Inv { c with
      heap := updf c.heap e ({ E with readers := rs }),
      threads := updf c.threads t ns } := by
  have heB : e < c.nextE := hinv.refB t ts e hts het
  refine ⟨?_, ?_, ?_, hinv.mapB, ?_, ?_, ?_, ?_, ?_, ?_, ?_, ?_⟩ <;> dsimp only
  · intro t2 h2
    have htn : t2 ≠ t := by
      intro hEq
      subst hEq
      rw [hinv.tBound t2 h2] at hts
      exact absurd hts (by simp)
    rw [updf_ne _ _ htn]
    exact hinv.tBound t2 h2
  · intro e2 h2
    rcases eq_or_ne e2 e with hEq | hne
    · subst hEq
      exact absurd heB (not_lt.mpr h2)
    · rw [updf_ne _ _ hne]
      exact hinv.heapHi e2 h2
  · intro e2 h2
    by_cases h2e : e2 = e
    · subst h2e
      exact ⟨_, updf_eq _ _ _⟩
    · rw [updf_ne _ _ h2e]
      exact hinv.heapLo e2 h2
  · intro t2 ts2 e2 ht2 hat
    by_cases h2t : t2 = t
    · subst h2t
      rw [updf_eq] at ht2
      injection ht2 with ht2
      subst ht2
      rw [hany e2 hat]
      exact heB
    · rw [updf_ne _ _ h2t] at ht2
      exact hinv.refB t2 ts2 e2 ht2 hat
  · intro t2 ts2 e2 ht2 hat
    by_cases h2t : t2 = t
    · subst h2t
      rw [updf_eq] at ht2
      injection ht2 with ht2
      subst ht2
      exact absurd hat (hpop e2)
    · rw [updf_ne _ _ h2t] at ht2
      exact hinv.popMap t2 ts2 e2 ht2 hat
  · intro t2 ts2 e2 E2 ht2 hat hE2
    by_cases h2t : t2 = t
    · subst h2t
      rw [updf_eq] at ht2
      injection ht2 with ht2
      subst ht2
      exact absurd hat (hpop e2)
    · rw [updf_ne _ _ h2t] at ht2
      by_cases h2e : e2 = e
      · subst h2e
        rw [updf_eq] at hE2
        injection hE2 with hE2
        rw [show E2 = { E with readers := rs } from hE2.symm]
        exact hinv.popVal t2 ts2 e2 E ht2 hat hE
      · rw [updf_ne _ _ h2e] at hE2
        exact hinv.popVal t2 ts2 e2 E2 ht2 hat hE2
  · intro t1 t2 ts1 ts2 e2 ht1 ht2 hp1 hp2
    by_cases h1t : t1 = t
    · subst h1t
      rw [updf_eq] at ht1
      injection ht1 with ht1
      subst ht1
      exact absurd hp1 (hpop e2)
    · by_cases h2t : t2 = t
      · subst h2t
        rw [updf_eq] at ht2
        injection ht2 with ht2
        subst ht2
        exact absurd hp2 (hpop e2)
      · rw [updf_ne _ _ h1t] at ht1
        rw [updf_ne _ _ h2t] at ht2
        exact hinv.popUniq t1 t2 ts1 ts2 e2 ht1 ht2 hp1 hp2
  · intro t1 t2 ts1 ts2 e2 ht1 ht2 hp1
    by_cases h1t : t1 = t
    · subst h1t
      rw [updf_eq] at ht1
      injection ht1 with ht1
      subst ht1
      exact absurd hp1 (hpop e2)
    · by_cases h2t : t2 = t
      · subst h2t
        rw [updf_eq] at ht2
        injection ht2 with ht2
        subst ht2
        exact hrefr e2
      · rw [updf_ne _ _ h1t] at ht1
        rw [updf_ne _ _ h2t] at ht2
        exact hinv.popNoRefr t1 t2 ts1 ts2 e2 ht1 ht2 hp1
  · intro t2 ts2 e2 ht2 hat
    by_cases h2t : t2 = t
    · subst h2t
      rw [updf_eq] at ht2
      injection ht2 with ht2
      subst ht2
      exact absurd hat (hrefr e2)
    · rw [updf_ne _ _ h2t] at ht2
      exact hinv.refrMap t2 ts2 e2 ht2 hat
  · intro t2 ts2 e2 E2 ht2 hat hE2
    by_cases h2t : t2 = t
    · subst h2t
      rw [updf_eq] at ht2
      injection ht2 with ht2
      subst ht2
      exact absurd hat (hifl e2)
    · rw [updf_ne _ _ h2t] at ht2
      by_cases h2e : e2 = e
      · subst h2e
        rw [updf_eq] at hE2
        injection hE2 with hE2
        rw [show E2 = { E with readers := rs } from hE2.symm]
        exact hinv.own t2 ts2 e2 E ht2 hat hE
      · rw [updf_ne _ _ h2e] at hE2
        exact hinv.own t2 ts2 e2 E2 ht2 hat hE2
  · intro e2 E2 hE2 hval
    by_cases h2e : e2 = e
    · subst h2e
      rw [updf_eq] at hE2
      injection hE2 with hE2
      have hv2 : E.value ≠ none := by
        intro hvn
        rw [show E2 = { E with readers := rs } from hE2.symm] at hval
        exact hval hvn
      exact hinv.valMap e2 E hE hv2
    · rw [updf_ne _ _ h2e] at hE2
      exact hinv.valMap e2 E2 hE2 hval

theorem step_inv {h : HandlerFn} {p : List GoString} {ttl : Int} {c c2 : Conf} {t : TId}
    (hinv : Inv c) (hstep : step h p ttl c t = some c2) : Inv c2 := by
  unfold step at hstep
  cases hts : c.threads t with
  | none => rw [hts] at hstep; exact absurd hstep (by simp)
  | some ts =>
    rw [hts] at hstep
    cases ts with
    | req rpc now =>
      cases rpc with
      | start =>
        dsimp only at hstep
        cases hm : c.mapE with
        | none =>
          rw [hm] at hstep
          dsimp only at hstep
          injection hstep with h2
          subst h2
          refine ⟨?_, ?_, ?_, ?_, ?_, ?_, ?_, ?_, ?_, ?_, ?_, ?_⟩ <;> dsimp only
          · intro t2 h2
            have htn : t2 ≠ t := by
              intro hEq
              subst hEq
              rw [hinv.tBound t2 h2] at hts
              exact absurd hts (by simp)
            rw [updf_ne _ _ htn]
            exact hinv.tBound t2 h2
          · intro e2 h2
            have hne : e2 ≠ c.nextE := by
              intro hEq
              subst hEq
              exact absurd h2 (Nat.not_succ_le_self _)
            rw [updf_ne _ _ hne]
            exact hinv.heapHi e2 (le_trans (Nat.le_succ _) h2)
          · intro e2 h2
            rcases eq_or_ne e2 c.nextE with hEq | hne
            · subst hEq
              exact ⟨_, updf_eq _ _ _⟩
            · rw [updf_ne _ _ hne]
              exact hinv.heapLo e2 (lt_of_le_of_ne (Nat.lt_succ_iff.mp h2) hne)
          · intro e2 h2
            injection h2 with h2
            rw [← h2]
            exact Nat.lt_succ_self _
          · intro t2 ts2 e2 ht2 hat
            by_cases h2t : t2 = t
            · subst h2t
              rw [updf_eq] at ht2
              injection ht2 with ht2
              subst ht2
              simp only [anyTarget, Option.some.injEq] at hat
              rw [← hat]
              exact Nat.lt_succ_self _
            · rw [updf_ne _ _ h2t] at ht2
              exact Nat.lt_succ_of_lt (hinv.refB t2 ts2 e2 ht2 hat)
          · intro t2 ts2 e2 ht2 hpt
            by_cases h2t : t2 = t
            · subst h2t
              rw [updf_eq] at ht2
              injection ht2 with ht2
              subst ht2
              simp only [popTarget, Option.some.injEq] at hpt
              rw [hpt]
            · rw [updf_ne _ _ h2t] at ht2
              have hmm2 := hinv.popMap t2 ts2 e2 ht2 hpt
              rw [hm] at hmm2
              exact absurd hmm2 (by simp)
          · intro t2 ts2 e2 E2 ht2 hpt hE2
            by_cases h2t : t2 = t
            · subst h2t
              rw [updf_eq] at ht2
              injection ht2 with ht2
              subst ht2
              simp only [popTarget, Option.some.injEq] at hpt
              rw [← hpt] at hE2
              rw [updf_eq] at hE2
              injection hE2 with hE2
              rw [← hE2]
            · rw [updf_ne _ _ h2t] at ht2
              have hmm2 := hinv.popMap t2 ts2 e2 ht2 hpt
              rw [hm] at hmm2
              exact absurd hmm2 (by simp)
          · intro t1 t2 ts1 ts2 e2 ht1 ht2 hp1 hp2
            by_cases h1t : t1 = t
            · by_cases h2t : t2 = t
              · rw [h1t, h2t]
              · subst h1t
                rw [updf_ne _ _ h2t] at ht2
                have hmm2 := hinv.popMap t2 ts2 e2 ht2 hp2
                rw [hm] at hmm2
                exact absurd hmm2 (by simp)
            · rw [updf_ne _ _ h1t] at ht1
              have hmm2 := hinv.popMap t1 ts1 e2 ht1 hp1
              rw [hm] at hmm2
              exact absurd hmm2 (by simp)
          · intro t1 t2 ts1 ts2 e2 ht1 ht2 hp1
            by_cases h2t : t2 = t
            · subst h2t
              rw [updf_eq] at ht2
              injection ht2 with ht2
              subst ht2
              simp [refrTarget]
            · rw [updf_ne _ _ h2t] at ht2
              intro hre
              have hmm2 := hinv.refrMap t2 ts2 e2 ht2 hre
              rw [hm] at hmm2
              exact absurd hmm2 (by simp)
          · intro t2 ts2 e2 ht2 hrt
            by_cases h2t : t2 = t
            · subst h2t
              rw [updf_eq] at ht2
              injection ht2 with ht2
              subst ht2
              simp [refrTarget] at hrt
            · rw [updf_ne _ _ h2t] at ht2
              have hmm2 := hinv.refrMap t2 ts2 e2 ht2 hrt
              rw [hm] at hmm2
              exact absurd hmm2 (by simp)
          · intro t2 ts2 e2 E2 ht2 hit hE2
            by_cases h2t : t2 = t
            · subst h2t
              rw [updf_eq] at ht2
              injection ht2 with ht2
              subst ht2
              simp [inFlightTarget] at hit
            · rw [updf_ne _ _ h2t] at ht2
              have heb : e2 < c.nextE := hinv.refB t2 ts2 e2 ht2 (anyTarget_ifl hit)
              have hne : e2 ≠ c.nextE := by
                intro hEq
                rw [hEq] at heb
                exact absurd heb (lt_irrefl _)
              rw [updf_ne _ _ hne] at hE2
              exact hinv.own t2 ts2 e2 E2 ht2 hit hE2
          · intro e2 E2 hE2 hval
            rcases eq_or_ne e2 c.nextE with hEq | hne
            · subst hEq
              rfl
            · rw [updf_ne _ _ hne] at hE2
              have hmm2 := hinv.valMap e2 E2 hE2 hval
              rw [hm] at hmm2
              exact absurd hmm2 (by simp)
        | some e0 =>
          rw [hm] at hstep
          dsimp only at hstep
          injection hstep with h2
          subst h2
          rw [← hm]
          refine Inv_retarget hinv t hts ?_ ?_ ?_ ?_ <;> intro e2 hx <;>
            simp [popTarget, refrTarget, inFlightTarget, anyTarget] at hx
      | popLock e =>
        dsimp only at hstep
        cases hE : c.heap e with
        | none => rw [hE] at hstep; exact absurd hstep (by simp)
        | some E =>
          obtain ⟨Ev, Ex, Ew, Er⟩ := E
          rw [hE] at hstep
          dsimp only at hstep
          by_cases hg : Ew = none ∧ Er = []
          · rw [if_pos hg] at hstep
            injection hstep with h2
            subst h2
            have heB : e < c.nextE := hinv.refB t _ e hts rfl
            have hMap : c.mapE = some e := hinv.popMap t _ e hts rfl
            have hVal : Ev = none := hinv.popVal t _ e ⟨Ev, Ex, Ew, Er⟩ hts rfl hE
            refine ⟨?_, ?_, ?_, hinv.mapB, ?_, ?_, ?_, ?_, ?_, ?_, ?_, ?_⟩ <;> dsimp only
            · intro t2 h2
              have htn : t2 ≠ t := by
                intro hEq
                subst hEq
                rw [hinv.tBound t2 h2] at hts
                exact absurd hts (by simp)
              rw [updf_ne _ _ htn]
              exact hinv.tBound t2 h2
            · intro e2 h2
              rcases eq_or_ne e2 e with hEq | hne
              · subst hEq
                exact absurd heB (not_lt.mpr h2)
              · rw [updf_ne _ _ hne]
                exact hinv.heapHi e2 h2
            · intro e2 h2
              rcases eq_or_ne e2 e with hEq | hne
              · subst hEq
                exact ⟨_, updf_eq _ _ _⟩
              · rw [updf_ne _ _ hne]
                exact hinv.heapLo e2 h2
            · intro t2 ts2 e2 ht2 hat
              by_cases h2t : t2 = t
              · subst h2t
                rw [updf_eq] at ht2
                injection ht2 with ht2
                subst ht2
                simp only [anyTarget, Option.some.injEq] at hat
                rw [← hat]
                exact heB
              · rw [updf_ne _ _ h2t] at ht2
                exact hinv.refB t2 ts2 e2 ht2 hat
            · intro t2 ts2 e2 ht2 hpt
              by_cases h2t : t2 = t
              · subst h2t
                rw [updf_eq] at ht2
                injection ht2 with ht2
                subst ht2
                simp only [popTarget, Option.some.injEq] at hpt
                rw [← hpt]
                exact hMap
              · rw [updf_ne _ _ h2t] at ht2
                exact hinv.popMap t2 ts2 e2 ht2 hpt
            · intro t2 ts2 e2 E2 ht2 hpt hE2
              by_cases h2t : t2 = t
              · subst h2t
                rw [updf_eq] at ht2
                injection ht2 with ht2
                subst ht2
                simp only [popTarget, Option.some.injEq] at hpt
                rw [← hpt] at hE2
                rw [updf_eq] at hE2
                injection hE2 with hE2
                rw [← hE2]
                exact hVal
              · rw [updf_ne _ _ h2t] at ht2
                rcases eq_or_ne e2 e with hEq | hne
                · subst hEq
                  exact absurd (hinv.popUniq t2 t ts2 _ e2 ht2 hts hpt rfl) h2t
                · rw [updf_ne _ _ hne] at hE2
                  exact hinv.popVal t2 ts2 e2 E2 ht2 hpt hE2
            · intro t1 t2 ts1 ts2 e2 ht1 ht2 hp1 hp2
              by_cases h1t : t1 = t
              · by_cases h2t : t2 = t
                · rw [h1t, h2t]
                · rw [h1t] at ht1
                  rw [updf_eq] at ht1
                  injection ht1 with ht1
                  subst ht1
                  rw [updf_ne _ _ h2t] at ht2
                  simp only [popTarget, Option.some.injEq] at hp1
                  rw [← hp1] at hp2
                  exact absurd (hinv.popUniq t2 t ts2 _ e ht2 hts hp2 rfl) h2t
              · by_cases h2t : t2 = t
                · rw [h2t] at ht2
                  rw [updf_eq] at ht2
                  injection ht2 with ht2
                  subst ht2
                  rw [updf_ne _ _ h1t] at ht1
                  simp only [popTarget, Option.some.injEq] at hp2
                  rw [← hp2] at hp1
                  exact absurd (hinv.popUniq t1 t ts1 _ e ht1 hts hp1 rfl) h1t
                · rw [updf_ne _ _ h1t] at ht1
                  rw [updf_ne _ _ h2t] at ht2
                  exact hinv.popUniq t1 t2 ts1 ts2 e2 ht1 ht2 hp1 hp2
            · intro t1 t2 ts1 ts2 e2 ht1 ht2 hp1
              by_cases h2t : t2 = t
              · subst h2t
                rw [updf_eq] at ht2
                injection ht2 with ht2
                subst ht2
                simp [refrTarget]
              · rw [updf_ne _ _ h2t] at ht2
                by_cases h1t : t1 = t
                · rw [h1t] at ht1
                  rw [updf_eq] at ht1
                  injection ht1 with ht1
                  subst ht1
                  simp only [popTarget, Option.some.injEq] at hp1
                  rw [← hp1]
                  exact hinv.popNoRefr t t2 _ ts2 e hts ht2 rfl
                · rw [updf_ne _ _ h1t] at ht1
                  exact hinv.popNoRefr t1 t2 ts1 ts2 e2 ht1 ht2 hp1
            · intro t2 ts2 e2 ht2 hrt
              by_cases h2t : t2 = t
              · subst h2t
                rw [updf_eq] at ht2
                injection ht2 with ht2
                subst ht2
                simp [refrTarget] at hrt
              · rw [updf_ne _ _ h2t] at ht2
                exact hinv.refrMap t2 ts2 e2 ht2 hrt
            · intro t2 ts2 e2 E2 ht2 hit hE2
              by_cases h2t : t2 = t
              · subst h2t
                rw [updf_eq] at ht2
                injection ht2 with ht2
                subst ht2
                simp only [inFlightTarget, Option.some.injEq] at hit
                rw [← hit] at hE2
                rw [updf_eq] at hE2
                injection hE2 with hE2
                rw [← hE2]
              · rw [updf_ne _ _ h2t] at ht2
                rcases eq_or_ne e2 e with hEq | hne
                · subst hEq
                  have hw2 := hinv.own t2 ts2 e2 ⟨Ev, Ex, Ew, Er⟩ ht2 hit hE
                  rw [hg.1] at hw2
                  exact absurd hw2 (by simp)
                · rw [updf_ne _ _ hne] at hE2
                  exact hinv.own t2 ts2 e2 E2 ht2 hit hE2
            · intro e2 E2 hE2 hval
              rcases eq_or_ne e2 e with hEq | hne
              · subst hEq
                exact hMap
              · rw [updf_ne _ _ hne] at hE2
                exact hinv.valMap e2 E2 hE2 hval
          · rw [if_neg hg] at hstep
            exact absurd hstep (by simp)
      | popInvoke e =>
        dsimp only at hstep
        cases hE : c.heap e with
        | none => rw [hE] at hstep; exact absurd hstep (by simp)
        | some E =>
          obtain ⟨Ev, Ex, Ew, Er⟩ := E
          rw [hE] at hstep
          dsimp only at hstep
          have heB : e < c.nextE := hinv.refB t _ e hts rfl
          have hMap : c.mapE = some e := hinv.popMap t _ e hts rfl
          have hOwn : Ew = some t := hinv.own t _ e ⟨Ev, Ex, Ew, Er⟩ hts rfl hE
          cases hhp : h p with
          | mk bs herr =>
            rw [hhp] at hstep
            cases herr with
            | some err =>
              dsimp only at hstep
              injection hstep with h2
              subst h2
              refine ⟨?_, ?_, ?_, hinv.mapB, ?_, ?_, ?_, ?_, ?_, ?_, ?_, ?_⟩ <;> dsimp only
              · intro t2 h2
                have htn : t2 ≠ t := by
                  intro hEq
                  subst hEq
                  rw [hinv.tBound t2 h2] at hts
                  exact absurd hts (by simp)
                rw [updf_ne _ _ htn]
                exact hinv.tBound t2 h2
              · intro e2 h2
                rcases eq_or_ne e2 e with hEq | hne
                · subst hEq
                  exact absurd heB (not_lt.mpr h2)
                · rw [updf_ne _ _ hne]
                  exact hinv.heapHi e2 h2
              · intro e2 h2
                rcases eq_or_ne e2 e with hEq | hne
                · subst hEq
                  exact ⟨_, updf_eq _ _ _⟩
                · rw [updf_ne _ _ hne]
                  exact hinv.heapLo e2 h2
              · intro t2 ts2 e2 ht2 hat
                by_cases h2t : t2 = t
                · rw [h2t] at ht2
                  rw [updf_eq] at ht2
                  injection ht2 with ht2
                  subst ht2
                  simp only [anyTarget, Option.some.injEq] at hat
                  rw [← hat]
                  exact heB
                · rw [updf_ne _ _ h2t] at ht2
                  exact hinv.refB t2 ts2 e2 ht2 hat
              · intro t2 ts2 e2 ht2 hpt
                by_cases h2t : t2 = t
                · rw [h2t] at ht2
                  rw [updf_eq] at ht2
                  injection ht2 with ht2
                  subst ht2
                  simp only [popTarget, Option.some.injEq] at hpt
                  rw [← hpt]
                  exact hMap
                · rw [updf_ne _ _ h2t] at ht2
                  exact hinv.popMap t2 ts2 e2 ht2 hpt
              · intro t2 ts2 e2 E2 ht2 hpt hE2
                by_cases h2t : t2 = t
                · rw [h2t] at ht2
                  rw [updf_eq] at ht2
                  injection ht2 with ht2
                  subst ht2
                  simp only [popTarget, Option.some.injEq] at hpt
                  rw [← hpt] at hE2
                  rw [updf_eq] at hE2
                  injection hE2 with hE2
                  rw [← hE2]
                · rw [updf_ne _ _ h2t] at ht2
                  rcases eq_or_ne e2 e with hEq | hne
                  · subst hEq
                    exact absurd (hinv.popUniq t2 t ts2 _ e2 ht2 hts hpt rfl) h2t
                  · rw [updf_ne _ _ hne] at hE2
                    exact hinv.popVal t2 ts2 e2 E2 ht2 hpt hE2
              · intro t1 t2 ts1 ts2 e2 ht1 ht2 hp1 hp2
                by_cases h1t : t1 = t
                · by_cases h2t : t2 = t
                  · rw [h1t, h2t]
                  · rw [h1t] at ht1
                    rw [updf_eq] at ht1
                    injection ht1 with ht1
                    subst ht1
                    rw [updf_ne _ _ h2t] at ht2
                    simp only [popTarget, Option.some.injEq] at hp1
                    rw [← hp1] at hp2
                    exact absurd (hinv.popUniq t2 t ts2 _ e ht2 hts hp2 rfl) h2t
                · by_cases h2t : t2 = t
                  · rw [h2t] at ht2
                    rw [updf_eq] at ht2
                    injection ht2 with ht2
                    subst ht2
                    rw [updf_ne _ _ h1t] at ht1
                    simp only [popTarget, Option.some.injEq] at hp2
                    rw [← hp2] at hp1
                    exact absurd (hinv.popUniq t1 t ts1 _ e ht1 hts hp1 rfl) h1t
                  · rw [updf_ne _ _ h1t] at ht1
                    rw [updf_ne _ _ h2t] at ht2
                    exact hinv.popUniq t1 t2 ts1 ts2 e2 ht1 ht2 hp1 hp2
              · intro t1 t2 ts1 ts2 e2 ht1 ht2 hp1
                by_cases h2t : t2 = t
                · rw [h2t] at ht2
                  rw [updf_eq] at ht2
                  injection ht2 with ht2
                  subst ht2
                  simp [refrTarget]
                · rw [updf_ne _ _ h2t] at ht2
                  by_cases h1t : t1 = t
                  · rw [h1t] at ht1
                    rw [updf_eq] at ht1
                    injection ht1 with ht1
                    subst ht1
                    simp only [popTarget, Option.some.injEq] at hp1
                    rw [← hp1]
                    exact hinv.popNoRefr t t2 _ ts2 e hts ht2 rfl
                  · rw [updf_ne _ _ h1t] at ht1
                    exact hinv.popNoRefr t1 t2 ts1 ts2 e2 ht1 ht2 hp1
              · intro t2 ts2 e2 ht2 hrt
                by_cases h2t : t2 = t
                · rw [h2t] at ht2
                  rw [updf_eq] at ht2
                  injection ht2 with ht2
                  subst ht2
                  simp [refrTarget] at hrt
                · rw [updf_ne _ _ h2t] at ht2
                  exact hinv.refrMap t2 ts2 e2 ht2 hrt
              · intro t2 ts2 e2 E2 ht2 hit hE2
                by_cases h2t : t2 = t
                · rw [h2t] at ht2
                  rw [updf_eq] at ht2
                  injection ht2 with ht2
                  subst ht2
                  simp [inFlightTarget] at hit
                · rw [updf_ne _ _ h2t] at ht2
                  rcases eq_or_ne e2 e with hEq | hne
                  · subst hEq
                    have hw2 := hinv.own t2 ts2 e2 ⟨Ev, Ex, Ew, Er⟩ ht2 hit hE
                    have := hOwn.symm.trans hw2
                    injection this with this
                    exact absurd this.symm h2t
                  · rw [updf_ne _ _ hne] at hE2
                    exact hinv.own t2 ts2 e2 E2 ht2 hit hE2
              · intro e2 E2 hE2 hval
                rcases eq_or_ne e2 e with hEq | hne
                · subst hEq
                  exact hMap
                · rw [updf_ne _ _ hne] at hE2
                  exact hinv.valMap e2 E2 hE2 hval
            | none =>
              dsimp only at hstep
              injection hstep with h2
              subst h2
              refine ⟨?_, ?_, ?_, hinv.mapB, ?_, ?_, ?_, ?_, ?_, ?_, ?_, ?_⟩ <;> dsimp only
              · intro t2 h2
                have htn : t2 ≠ t := by
                  intro hEq
                  subst hEq
                  rw [hinv.tBound t2 h2] at hts
                  exact absurd hts (by simp)
                rw [updf_ne _ _ htn]
                exact hinv.tBound t2 h2
              · intro e2 h2
                rcases eq_or_ne e2 e with hEq | hne
                · subst hEq
                  exact absurd heB (not_lt.mpr h2)
                · rw [updf_ne _ _ hne]
                  exact hinv.heapHi e2 h2
              · intro e2 h2
                rcases eq_or_ne e2 e with hEq | hne
                · subst hEq
                  exact ⟨_, updf_eq _ _ _⟩
                · rw [updf_ne _ _ hne]
                  exact hinv.heapLo e2 h2
              · intro t2 ts2 e2 ht2 hat
                by_cases h2t : t2 = t
                · rw [h2t] at ht2
                  rw [updf_eq] at ht2
                  injection ht2 with ht2
                  subst ht2
                  simp [anyTarget] at hat
                · rw [updf_ne _ _ h2t] at ht2
                  exact hinv.refB t2 ts2 e2 ht2 hat
              · intro t2 ts2 e2 ht2 hpt
                by_cases h2t : t2 = t
                · rw [h2t] at ht2
                  rw [updf_eq] at ht2
                  injection ht2 with ht2
                  subst ht2
                  simp [popTarget] at hpt
                · rw [updf_ne _ _ h2t] at ht2
                  exact hinv.popMap t2 ts2 e2 ht2 hpt
              · intro t2 ts2 e2 E2 ht2 hpt hE2
                by_cases h2t : t2 = t
                · rw [h2t] at ht2
                  rw [updf_eq] at ht2
                  injection ht2 with ht2
                  subst ht2
                  simp [popTarget] at hpt
                · rw [updf_ne _ _ h2t] at ht2
                  rcases eq_or_ne e2 e with hEq | hne
                  · subst hEq
                    exact absurd (hinv.popUniq t2 t ts2 _ e2 ht2 hts hpt rfl) h2t
                  · rw [updf_ne _ _ hne] at hE2
                    exact hinv.popVal t2 ts2 e2 E2 ht2 hpt hE2
              · intro t1 t2 ts1 ts2 e2 ht1 ht2 hp1 hp2
                by_cases h1t : t1 = t
                · rw [h1t] at ht1
                  rw [updf_eq] at ht1
                  injection ht1 with ht1
                  subst ht1
                  simp [popTarget] at hp1
                · by_cases h2t : t2 = t
                  · rw [h2t] at ht2
                    rw [updf_eq] at ht2
                    injection ht2 with ht2
                    subst ht2
                    simp [popTarget] at hp2
                  · rw [updf_ne _ _ h1t] at ht1
                    rw [updf_ne _ _ h2t] at ht2
                    exact hinv.popUniq t1 t2 ts1 ts2 e2 ht1 ht2 hp1 hp2
              · intro t1 t2 ts1 ts2 e2 ht1 ht2 hp1
                by_cases h2t : t2 = t
                · rw [h2t] at ht2
                  rw [updf_eq] at ht2
                  injection ht2 with ht2
                  subst ht2
                  simp [refrTarget]
                · rw [updf_ne _ _ h2t] at ht2
                  by_cases h1t : t1 = t
                  · rw [h1t] at ht1
                    rw [updf_eq] at ht1
                    injection ht1 with ht1
                    subst ht1
                    simp [popTarget] at hp1
                  · rw [updf_ne _ _ h1t] at ht1
                    exact hinv.popNoRefr t1 t2 ts1 ts2 e2 ht1 ht2 hp1
              · intro t2 ts2 e2 ht2 hrt
                by_cases h2t : t2 = t
                · rw [h2t] at ht2
                  rw [updf_eq] at ht2
                  injection ht2 with ht2
                  subst ht2
                  simp [refrTarget] at hrt
                · rw [updf_ne _ _ h2t] at ht2
                  exact hinv.refrMap t2 ts2 e2 ht2 hrt
              · intro t2 ts2 e2 E2 ht2 hit hE2
                by_cases h2t : t2 = t
                · rw [h2t] at ht2
                  rw [updf_eq] at ht2
                  injection ht2 with ht2
                  subst ht2
                  simp [inFlightTarget] at hit
                · rw [updf_ne _ _ h2t] at ht2
                  rcases eq_or_ne e2 e with hEq | hne
                  · subst hEq
                    have hw2 := hinv.own t2 ts2 e2 ⟨Ev, Ex, Ew, Er⟩ ht2 hit hE
                    have := hOwn.symm.trans hw2
                    injection this with this
                    exact absurd this.symm h2t
                  · rw [updf_ne _ _ hne] at hE2
                    exact hinv.own t2 ts2 e2 E2 ht2 hit hE2
              · intro e2 E2 hE2 hval
                rcases eq_or_ne e2 e with hEq | hne
                · subst hEq
                  exact hMap
                · rw [updf_ne _ _ hne] at hE2
                  exact hinv.valMap e2 E2 hE2 hval
      | popDelete e err =>
        dsimp only at hstep
        injection hstep with h2
        subst h2
        have hMap : c.mapE = some e := hinv.popMap t _ e hts rfl
        refine ⟨?_, hinv.heapHi, hinv.heapLo, ?_, ?_, ?_, ?_, ?_, ?_, ?_, ?_, ?_⟩ <;> dsimp only
        · intro t2 h2
          have htn : t2 ≠ t := by
            intro hEq
            subst hEq
            rw [hinv.tBound t2 h2] at hts
            exact absurd hts (by simp)
          rw [updf_ne _ _ htn]
          exact hinv.tBound t2 h2
        · intro e2 h2
          exact absurd h2 (by simp)
        · intro t2 ts2 e2 ht2 hat
          by_cases h2t : t2 = t
          · rw [h2t] at ht2
            rw [updf_eq] at ht2
            injection ht2 with ht2
            subst ht2
            simp [anyTarget] at hat
          · rw [updf_ne _ _ h2t] at ht2
            exact hinv.refB t2 ts2 e2 ht2 hat
        · intro t2 ts2 e2 ht2 hpt
          by_cases h2t : t2 = t
          · rw [h2t] at ht2
            rw [updf_eq] at ht2
            injection ht2 with ht2
            subst ht2
            simp [popTarget] at hpt
          · rw [updf_ne _ _ h2t] at ht2
            have hm2 := hinv.popMap t2 ts2 e2 ht2 hpt
            rw [hMap] at hm2
            injection hm2 with hm2
            rw [← hm2] at hpt
            exact absurd (hinv.popUniq t2 t ts2 _ e ht2 hts hpt rfl) h2t
        · intro t2 ts2 e2 E2 ht2 hpt hE2
          by_cases h2t : t2 = t
          · rw [h2t] at ht2
            rw [updf_eq] at ht2
            injection ht2 with ht2
            subst ht2
            simp [popTarget] at hpt
          · rw [updf_ne _ _ h2t] at ht2
            exact hinv.popVal t2 ts2 e2 E2 ht2 hpt hE2
        · intro t1 t2 ts1 ts2 e2 ht1 ht2 hp1 hp2
          by_cases h1t : t1 = t
          · rw [h1t] at ht1
            rw [updf_eq] at ht1
            injection ht1 with ht1
            subst ht1
            simp [popTarget] at hp1
          · by_cases h2t : t2 = t
            · rw [h2t] at ht2
              rw [updf_eq] at ht2
              injection ht2 with ht2
              subst ht2
              simp [popTarget] at hp2
            · rw [updf_ne _ _ h1t] at ht1
              rw [updf_ne _ _ h2t] at ht2
              exact hinv.popUniq t1 t2 ts1 ts2 e2 ht1 ht2 hp1 hp2
        · intro t1 t2 ts1 ts2 e2 ht1 ht2 hp1
          by_cases h2t : t2 = t
          · rw [h2t] at ht2
            rw [updf_eq] at ht2
            injection ht2 with ht2
            subst ht2
            simp [refrTarget]
          · rw [updf_ne _ _ h2t] at ht2
            by_cases h1t : t1 = t
            · rw [h1t] at ht1
              rw [updf_eq] at ht1
              injection ht1 with ht1
              subst ht1
              simp [popTarget] at hp1
            · rw [updf_ne _ _ h1t] at ht1
              exact hinv.popNoRefr t1 t2 ts1 ts2 e2 ht1 ht2 hp1
        · intro t2 ts2 e2 ht2 hrt
          by_cases h2t : t2 = t
          · rw [h2t] at ht2
            rw [updf_eq] at ht2
            injection ht2 with ht2
            subst ht2
            simp [refrTarget] at hrt
          · rw [updf_ne _ _ h2t] at ht2
            have hm2 := hinv.refrMap t2 ts2 e2 ht2 hrt
            rw [hMap] at hm2
            injection hm2 with hm2
            rw [← hm2] at hrt
            exact absurd hrt (hinv.popNoRefr t t2 _ ts2 e hts ht2 rfl)
        · intro t2 ts2 e2 E2 ht2 hit hE2
          by_cases h2t : t2 = t
          · rw [h2t] at ht2
            rw [updf_eq] at ht2
            injection ht2 with ht2
            subst ht2
            simp [inFlightTarget] at hit
          · rw [updf_ne _ _ h2t] at ht2
            exact hinv.own t2 ts2 e2 E2 ht2 hit hE2
        · intro e2 E2 hE2 hval
          have hm2 := hinv.valMap e2 E2 hE2 hval
          rw [hMap] at hm2
          injection hm2 with hm2
          rw [← hm2] at hE2
          have hv2 := hinv.popVal t _ e E2 hts rfl hE2
          rw [hv2] at hval
          exact absurd rfl hval
      | readStore =>
        dsimp only at hstep
        cases hm : c.mapE with
        | none =>
          rw [hm] at hstep
          dsimp only at hstep
          injection hstep with h2
          subst h2
          rw [← hm]
          refine Inv_retarget hinv t hts ?_ ?_ ?_ ?_ <;> intro e2 hx <;>
            simp [popTarget, refrTarget, inFlightTarget, anyTarget] at hx
        | some e0 =>
          rw [hm] at hstep
          dsimp only at hstep
          injection hstep with h2
          subst h2
          rw [← hm]
          refine Inv_retarget hinv t hts ?_ ?_ ?_ ?_
          · intro e2 hx; simp [popTarget] at hx
          · intro e2 hx; simp [refrTarget] at hx
          · intro e2 hx; simp [inFlightTarget] at hx
          · intro e2 hx
            simp [anyTarget] at hx
            exact hx ▸ hinv.mapB e0 hm
      | readEntry e =>
        dsimp only at hstep
        cases hE : c.heap e with
        | none => rw [hE] at hstep; exact absurd hstep (by simp)
        | some E =>
          obtain ⟨Ev, Ex, Ew, Er⟩ := E
          rw [hE] at hstep
          dsimp only at hstep
          by_cases hg : Ew = none
          · rw [if_pos hg] at hstep
            injection hstep with h2
            subst h2
            refine Inv_readers hinv t hts hE rfl (t :: Er) ?_ ?_ ?_ ?_
            · intro e2 hx; simp [popTarget] at hx
            · intro e2 hx; simp [refrTarget] at hx
            · intro e2 hx; simp [inFlightTarget] at hx
            · intro e2 hx
              simp [anyTarget] at hx
              exact hx.symm
          · rw [if_neg hg] at hstep
            exact absurd hstep (by simp)
      | readValue e =>
        dsimp only at hstep
        cases hE : c.heap e with
        | none => rw [hE] at hstep; exact absurd hstep (by simp)
        | some E =>
          obtain ⟨Ev, Ex, Ew, Er⟩ := E
          rw [hE] at hstep
          dsimp only at hstep
          cases Ev with
          | none =>
            dsimp only at hstep
            injection hstep with h2
            subst h2
            refine Inv_readers hinv t hts hE rfl (Er.erase t) ?_ ?_ ?_ ?_ <;>
              intro e2 hx <;> simp [popTarget, refrTarget, inFlightTarget, anyTarget] at hx
          | some v =>
            dsimp only at hstep
            by_cases hst : Ex < now
            · rw [if_pos hst] at hstep
              injection hstep with h2
              subst h2
              have heB : e < c.nextE := hinv.refB t _ e hts rfl
              have hMapV : c.mapE = some e :=
                hinv.valMap e ⟨some v, Ex, Ew, Er⟩ hE (by simp)
              have htlt : t < c.nextT := thread_lt_nextT hinv hts
              have hNoPop : ∀ t2 ts2, c.threads t2 = some ts2 → ¬ popTarget ts2 = some e := by
                intro t2 ts2 ht2 hp
                have hv0 := hinv.popVal t2 ts2 e ⟨some v, Ex, Ew, Er⟩ ht2 hp hE
                exact absurd hv0 (by simp)
              refine ⟨?_, ?_, ?_, hinv.mapB, ?_, ?_, ?_, ?_, ?_, ?_, ?_, ?_⟩ <;> dsimp only
              · intro t2 h2
                have hn1 : t2 ≠ c.nextT := by
                  intro hEq
                  rw [hEq] at h2
                  exact absurd h2 (Nat.not_succ_le_self _)
                have hn2 : t2 ≠ t := by
                  intro hEq
                  rw [hEq] at h2
                  exact absurd (Nat.lt_of_succ_le h2) (Nat.lt_asymm htlt)
                rw [updf_ne _ _ hn1, updf_ne _ _ hn2]
                exact hinv.tBound t2 (Nat.le_of_succ_le h2)
              · intro e2 h2
                rcases eq_or_ne e2 e with hEq | hne
                · subst hEq
                  exact absurd heB (not_lt.mpr h2)
                · rw [updf_ne _ _ hne]
                  exact hinv.heapHi e2 h2
              · intro e2 h2
                rcases eq_or_ne e2 e with hEq | hne
                · subst hEq
                  exact ⟨_, updf_eq _ _ _⟩
                · rw [updf_ne _ _ hne]
                  exact hinv.heapLo e2 h2
              · intro t2 ts2 e2 ht2 hat
                by_cases hnT : t2 = c.nextT
                · rw [hnT] at ht2
                  rw [updf_eq] at ht2
                  injection ht2 with ht2
                  subst ht2
                  simp only [anyTarget, Option.some.injEq] at hat
                  rw [← hat]
                  exact heB
                · rw [updf_ne _ _ hnT] at ht2
                  by_cases h2t : t2 = t
                  · rw [h2t] at ht2
                    rw [updf_eq] at ht2
                    injection ht2 with ht2
                    subst ht2
                    simp [anyTarget] at hat
                  · rw [updf_ne _ _ h2t] at ht2
                    exact hinv.refB t2 ts2 e2 ht2 hat
              · intro t2 ts2 e2 ht2 hpt
                by_cases hnT : t2 = c.nextT
                · rw [hnT] at ht2
                  rw [updf_eq] at ht2
                  injection ht2 with ht2
                  subst ht2
                  simp [popTarget] at hpt
                · rw [updf_ne _ _ hnT] at ht2
                  by_cases h2t : t2 = t
                  · rw [h2t] at ht2
                    rw [updf_eq] at ht2
                    injection ht2 with ht2
                    subst ht2
                    simp [popTarget] at hpt
                  · rw [updf_ne _ _ h2t] at ht2
                    exact hinv.popMap t2 ts2 e2 ht2 hpt
              · intro t2 ts2 e2 E2 ht2 hpt hE2
                by_cases hnT : t2 = c.nextT
                · rw [hnT] at ht2
                  rw [updf_eq] at ht2
                  injection ht2 with ht2
                  subst ht2
                  simp [popTarget] at hpt
                · rw [updf_ne _ _ hnT] at ht2
                  by_cases h2t : t2 = t
                  · rw [h2t] at ht2
                    rw [updf_eq] at ht2
                    injection ht2 with ht2
                    subst ht2
                    simp [popTarget] at hpt
                  · rw [updf_ne _ _ h2t] at ht2
                    rcases eq_or_ne e2 e with hEq | hne
                    · subst hEq
                      exact absurd hpt (hNoPop t2 ts2 ht2)
                    · rw [updf_ne _ _ hne] at hE2
                      exact hinv.popVal t2 ts2 e2 E2 ht2 hpt hE2
              · intro t1 t2 ts1 ts2 e2 ht1 ht2 hp1 hp2
                by_cases h1T : t1 = c.nextT
                · rw [h1T] at ht1
                  rw [updf_eq] at ht1
                  injection ht1 with ht1
                  subst ht1
                  simp [popTarget] at hp1
                · rw [updf_ne _ _ h1T] at ht1
                  by_cases h1t : t1 = t
                  · rw [h1t] at ht1
                    rw [updf_eq] at ht1
                    injection ht1 with ht1
                    subst ht1
                    simp [popTarget] at hp1
                  · rw [updf_ne _ _ h1t] at ht1
                    by_cases h2T : t2 = c.nextT
                    · rw [h2T] at ht2
                      rw [updf_eq] at ht2
                      injection ht2 with ht2
                      subst ht2
                      simp [popTarget] at hp2
                    · rw [updf_ne _ _ h2T] at ht2
                      by_cases h2t : t2 = t
                      · rw [h2t] at ht2
                        rw [updf_eq] at ht2
                        injection ht2 with ht2
                        subst ht2
                        simp [popTarget] at hp2
                      · rw [updf_ne _ _ h2t] at ht2
                        exact hinv.popUniq t1 t2 ts1 ts2 e2 ht1 ht2 hp1 hp2
              · intro t1 t2 ts1 ts2 e2 ht1 ht2 hp1
                by_cases h1T : t1 = c.nextT
                · rw [h1T] at ht1
                  rw [updf_eq] at ht1
                  injection ht1 with ht1
                  subst ht1
                  simp [popTarget] at hp1
                · rw [updf_ne _ _ h1T] at ht1
                  by_cases h1t : t1 = t
                  · rw [h1t] at ht1
                    rw [updf_eq] at ht1
                    injection ht1 with ht1
                    subst ht1
                    simp [popTarget] at hp1
                  · rw [updf_ne _ _ h1t] at ht1
                    by_cases h2T : t2 = c.nextT
                    · rw [h2T] at ht2
                      rw [updf_eq] at ht2
                      injection ht2 with ht2
                      subst ht2
                      intro hre
                      simp only [refrTarget, Option.some.injEq] at hre
                      rw [← hre] at hp1
                      exact absurd hp1 (hNoPop t1 ts1 ht1)
                    · rw [updf_ne _ _ h2T] at ht2
                      by_cases h2t : t2 = t
                      · rw [h2t] at ht2
                        rw [updf_eq] at ht2
                        injection ht2 with ht2
                        subst ht2
                        simp [refrTarget]
                      · rw [updf_ne _ _ h2t] at ht2
                        exact hinv.popNoRefr t1 t2 ts1 ts2 e2 ht1 ht2 hp1
              · intro t2 ts2 e2 ht2 hrt
                by_cases hnT : t2 = c.nextT
                · rw [hnT] at ht2
                  rw [updf_eq] at ht2
                  injection ht2 with ht2
                  subst ht2
                  simp only [refrTarget, Option.some.injEq] at hrt
                  rw [← hrt]
                  exact hMapV
                · rw [updf_ne _ _ hnT] at ht2
                  by_cases h2t : t2 = t
                  · rw [h2t] at ht2
                    rw [updf_eq] at ht2
                    injection ht2 with ht2
                    subst ht2
                    simp [refrTarget] at hrt
                  · rw [updf_ne _ _ h2t] at ht2
                    exact hinv.refrMap t2 ts2 e2 ht2 hrt
              · intro t2 ts2 e2 E2 ht2 hit hE2
                by_cases hnT : t2 = c.nextT
                · rw [hnT] at ht2
                  rw [updf_eq] at ht2
                  injection ht2 with ht2
                  subst ht2
                  simp [inFlightTarget] at hit
                · rw [updf_ne _ _ hnT] at ht2
                  by_cases h2t : t2 = t
                  · rw [h2t] at ht2
                    rw [updf_eq] at ht2
                    injection ht2 with ht2
                    subst ht2
                    simp [inFlightTarget] at hit
                  · rw [updf_ne _ _ h2t] at ht2
                    rcases eq_or_ne e2 e with hEq | hne
                    · subst hEq
                      rw [updf_eq] at hE2
                      injection hE2 with hE2
                      rw [← hE2]
                      exact hinv.own t2 ts2 e2 ⟨some v, Ex, Ew, Er⟩ ht2 hit hE
                    · rw [updf_ne _ _ hne] at hE2
                      exact hinv.own t2 ts2 e2 E2 ht2 hit hE2
              · intro e2 E2 hE2 hval
                rcases eq_or_ne e2 e with hEq | hne
                · subst hEq
                  exact hMapV
                · rw [updf_ne _ _ hne] at hE2
                  exact hinv.valMap e2 E2 hE2 hval
            · rw [if_neg hst] at hstep
              injection hstep with h2
              subst h2
              refine Inv_readers hinv t hts hE rfl (Er.erase t) ?_ ?_ ?_ ?_ <;>
                intro e2 hx <;> simp [popTarget, refrTarget, inFlightTarget, anyTarget] at hx
      | done oc => dsimp only at hstep; exact absurd hstep (by simp)
    | refr gpc now =>
      cases gpc with
      | refrLock e =>
        dsimp only at hstep
        cases hE : c.heap e with
        | none => rw [hE] at hstep; exact absurd hstep (by simp)
        | some E =>
          obtain ⟨Ev, Ex, Ew, Er⟩ := E
          rw [hE] at hstep
          dsimp only at hstep
          by_cases hg : Ew = none ∧ Er = []
          · rw [if_pos hg] at hstep
            injection hstep with h2
            subst h2
            have heB : e < c.nextE := hinv.refB t _ e hts rfl
            have hMapR : c.mapE = some e := hinv.refrMap t _ e hts rfl
            refine ⟨?_, ?_, ?_, hinv.mapB, ?_, ?_, ?_, ?_, ?_, ?_, ?_, ?_⟩ <;> dsimp only
            · intro t2 h2
              have htn : t2 ≠ t := by
                intro hEq
                subst hEq
                rw [hinv.tBound t2 h2] at hts
                exact absurd hts (by simp)
              rw [updf_ne _ _ htn]
              exact hinv.tBound t2 h2
            · intro e2 h2
              rcases eq_or_ne e2 e with hEq | hne
              · subst hEq
                exact absurd heB (not_lt.mpr h2)
              · rw [updf_ne _ _ hne]
                exact hinv.heapHi e2 h2
            · intro e2 h2
              rcases eq_or_ne e2 e with hEq | hne
              · subst hEq
                exact ⟨_, updf_eq _ _ _⟩
              · rw [updf_ne _ _ hne]
                exact hinv.heapLo e2 h2
            · intro t2 ts2 e2 ht2 hat
              by_cases h2t : t2 = t
              · rw [h2t] at ht2
                rw [updf_eq] at ht2
                injection ht2 with ht2
                subst ht2
                simp only [anyTarget, Option.some.injEq] at hat
                rw [← hat]
                exact heB
              · rw [updf_ne _ _ h2t] at ht2
                exact hinv.refB t2 ts2 e2 ht2 hat
            · intro t2 ts2 e2 ht2 hpt
              by_cases h2t : t2 = t
              · rw [h2t] at ht2
                rw [updf_eq] at ht2
                injection ht2 with ht2
                subst ht2
                simp [popTarget] at hpt
              · rw [updf_ne _ _ h2t] at ht2
                exact hinv.popMap t2 ts2 e2 ht2 hpt
            · intro t2 ts2 e2 E2 ht2 hpt hE2
              by_cases h2t : t2 = t
              · rw [h2t] at ht2
                rw [updf_eq] at ht2
                injection ht2 with ht2
                subst ht2
                simp [popTarget] at hpt
              · rw [updf_ne _ _ h2t] at ht2
                rcases eq_or_ne e2 e with hEq | hne
                · subst hEq
                  exact absurd rfl (hinv.popNoRefr t2 t ts2 _ e2 ht2 hts hpt)
                · rw [updf_ne _ _ hne] at hE2
                  exact hinv.popVal t2 ts2 e2 E2 ht2 hpt hE2
            · intro t1 t2 ts1 ts2 e2 ht1 ht2 hp1 hp2
              by_cases h1t : t1 = t
              · rw [h1t] at ht1
                rw [updf_eq] at ht1
                injection ht1 with ht1
                subst ht1
                simp [popTarget] at hp1
              · by_cases h2t : t2 = t
                · rw [h2t] at ht2
                  rw [updf_eq] at ht2
                  injection ht2 with ht2
                  subst ht2
                  simp [popTarget] at hp2
                · rw [updf_ne _ _ h1t] at ht1
                  rw [updf_ne _ _ h2t] at ht2
                  exact hinv.popUniq t1 t2 ts1 ts2 e2 ht1 ht2 hp1 hp2
            · intro t1 t2 ts1 ts2 e2 ht1 ht2 hp1
              by_cases h1t : t1 = t
              · rw [h1t] at ht1
                rw [updf_eq] at ht1
                injection ht1 with ht1
                subst ht1
                simp [popTarget] at hp1
              · rw [updf_ne _ _ h1t] at ht1
                by_cases h2t : t2 = t
                · rw [h2t] at ht2
                  rw [updf_eq] at ht2
                  injection ht2 with ht2
                  subst ht2
                  intro hre
                  simp only [refrTarget, Option.some.injEq] at hre
                  rw [← hre] at hp1
                  exact absurd rfl (hinv.popNoRefr t1 t ts1 _ e ht1 hts hp1)
                · rw [updf_ne _ _ h2t] at ht2
                  exact hinv.popNoRefr t1 t2 ts1 ts2 e2 ht1 ht2 hp1
            · intro t2 ts2 e2 ht2 hrt
              by_cases h2t : t2 = t
              · rw [h2t] at ht2
                rw [updf_eq] at ht2
                injection ht2 with ht2
                subst ht2
                simp only [refrTarget, Option.some.injEq] at hrt
                rw [← hrt]
                exact hMapR
              · rw [updf_ne _ _ h2t] at ht2
                exact hinv.refrMap t2 ts2 e2 ht2 hrt
            · intro t2 ts2 e2 E2 ht2 hit hE2
              by_cases h2t : t2 = t
              · rw [h2t] at ht2
                rw [updf_eq] at ht2
                injection ht2 with ht2
                subst ht2
                simp only [inFlightTarget, Option.some.injEq] at hit
                rw [← hit] at hE2
                rw [updf_eq] at hE2
                injection hE2 with hE2
                rw [← hE2, h2t]
              · rw [updf_ne _ _ h2t] at ht2
                rcases eq_or_ne e2 e with hEq | hne
                · subst hEq
                  have hw2 := hinv.own t2 ts2 e2 ⟨Ev, Ex, Ew, Er⟩ ht2 hit hE
                  rw [hg.1] at hw2
                  exact absurd hw2 (by simp)
                · rw [updf_ne _ _ hne] at hE2
                  exact hinv.own t2 ts2 e2 E2 ht2 hit hE2
            · intro e2 E2 hE2 hval
              rcases eq_or_ne e2 e with hEq | hne
              · subst hEq
                exact hMapR
              · rw [updf_ne _ _ hne] at hE2
                exact hinv.valMap e2 E2 hE2 hval
          · rw [if_neg hg] at hstep
            exact absurd hstep (by simp)
      | refrInvoke e =>
        dsimp only at hstep
        cases hE : c.heap e with
        | none => rw [hE] at hstep; exact absurd hstep (by simp)
        | some E =>
          obtain ⟨Ev, Ex, Ew, Er⟩ := E
          rw [hE] at hstep
          dsimp only at hstep
          have heB : e < c.nextE := hinv.refB t _ e hts rfl
          have hMapR : c.mapE = some e := hinv.refrMap t _ e hts rfl
          have hOwn : Ew = some t := hinv.own t _ e ⟨Ev, Ex, Ew, Er⟩ hts rfl hE
          cases hhp : h p with
          | mk bs herr =>
            rw [hhp] at hstep
            cases herr with
            | some err =>
              dsimp only at hstep
              injection hstep with h2
              subst h2
              refine ⟨?_, ?_, ?_, hinv.mapB, ?_, ?_, ?_, ?_, ?_, ?_, ?_, ?_⟩ <;> dsimp only
              · intro t2 h2
                have htn : t2 ≠ t := by
                  intro hEq
                  subst hEq
                  rw [hinv.tBound t2 h2] at hts
                  exact absurd hts (by simp)
                rw [updf_ne _ _ htn]
                exact hinv.tBound t2 h2
              · intro e2 h2
                rcases eq_or_ne e2 e with hEq | hne
                · subst hEq
                  exact absurd heB (not_lt.mpr h2)
                · rw [updf_ne _ _ hne]
                  exact hinv.heapHi e2 h2
              · intro e2 h2
                rcases eq_or_ne e2 e with hEq | hne
                · subst hEq
                  exact ⟨_, updf_eq _ _ _⟩
                · rw [updf_ne _ _ hne]
                  exact hinv.heapLo e2 h2
              · intro t2 ts2 e2 ht2 hat
                by_cases h2t : t2 = t
                · rw [h2t] at ht2
                  rw [updf_eq] at ht2
                  injection ht2 with ht2
                  subst ht2
                  simp [anyTarget] at hat
                · rw [updf_ne _ _ h2t] at ht2
                  exact hinv.refB t2 ts2 e2 ht2 hat
              · intro t2 ts2 e2 ht2 hpt
                by_cases h2t : t2 = t
                · rw [h2t] at ht2
                  rw [updf_eq] at ht2
                  injection ht2 with ht2
                  subst ht2
                  simp [popTarget] at hpt
                · rw [updf_ne _ _ h2t] at ht2
                  exact hinv.popMap t2 ts2 e2 ht2 hpt
              · intro t2 ts2 e2 E2 ht2 hpt hE2
                by_cases h2t : t2 = t
                · rw [h2t] at ht2
                  rw [updf_eq] at ht2
                  injection ht2 with ht2
                  subst ht2
                  simp [popTarget] at hpt
                · rw [updf_ne _ _ h2t] at ht2
                  rcases eq_or_ne e2 e with hEq | hne
                  · subst hEq
                    exact absurd rfl (hinv.popNoRefr t2 t ts2 _ e2 ht2 hts hpt)
                  · rw [updf_ne _ _ hne] at hE2
                    exact hinv.popVal t2 ts2 e2 E2 ht2 hpt hE2
              · intro t1 t2 ts1 ts2 e2 ht1 ht2 hp1 hp2
                by_cases h1t : t1 = t
                · rw [h1t] at ht1
                  rw [updf_eq] at ht1
                  injection ht1 with ht1
                  subst ht1
                  simp [popTarget] at hp1
                · by_cases h2t : t2 = t
                  · rw [h2t] at ht2
                    rw [updf_eq] at ht2
                    injection ht2 with ht2
                    subst ht2
                    simp [popTarget] at hp2
                  · rw [updf_ne _ _ h1t] at ht1
                    rw [updf_ne _ _ h2t] at ht2
                    exact hinv.popUniq t1 t2 ts1 ts2 e2 ht1 ht2 hp1 hp2
              · intro t1 t2 ts1 ts2 e2 ht1 ht2 hp1
                by_cases h1t : t1 = t
                · rw [h1t] at ht1
                  rw [updf_eq] at ht1
                  injection ht1 with ht1
                  subst ht1
                  simp [popTarget] at hp1
                · rw [updf_ne _ _ h1t] at ht1
                  by_cases h2t : t2 = t
                  · rw [h2t] at ht2
                    rw [updf_eq] at ht2
                    injection ht2 with ht2
                    subst ht2
                    simp [refrTarget]
                  · rw [updf_ne _ _ h2t] at ht2
                    exact hinv.popNoRefr t1 t2 ts1 ts2 e2 ht1 ht2 hp1
              · intro t2 ts2 e2 ht2 hrt
                by_cases h2t : t2 = t
                · rw [h2t] at ht2
                  rw [updf_eq] at ht2
                  injection ht2 with ht2
                  subst ht2
                  simp [refrTarget] at hrt
                · rw [updf_ne _ _ h2t] at ht2
                  exact hinv.refrMap t2 ts2 e2 ht2 hrt
              · intro t2 ts2 e2 E2 ht2 hit hE2
                by_cases h2t : t2 = t
                · rw [h2t] at ht2
                  rw [updf_eq] at ht2
                  injection ht2 with ht2
                  subst ht2
                  simp [inFlightTarget] at hit
                · rw [updf_ne _ _ h2t] at ht2
                  rcases eq_or_ne e2 e with hEq | hne
                  · subst hEq
                    have hw2 := hinv.own t2 ts2 e2 ⟨Ev, Ex, Ew, Er⟩ ht2 hit hE
                    have hww := hOwn.symm.trans hw2
                    injection hww with hww
                    exact absurd hww.symm h2t
                  · rw [updf_ne _ _ hne] at hE2
                    exact hinv.own t2 ts2 e2 E2 ht2 hit hE2
              · intro e2 E2 hE2 hval
                rcases eq_or_ne e2 e with hEq | hne
                · subst hEq
                  exact hMapR
                · rw [updf_ne _ _ hne] at hE2
                  exact hinv.valMap e2 E2 hE2 hval
            | none =>
              dsimp only at hstep
              injection hstep with h2
              subst h2
              refine ⟨?_, ?_, ?_, hinv.mapB, ?_, ?_, ?_, ?_, ?_, ?_, ?_, ?_⟩ <;> dsimp only
              · intro t2 h2
                have htn : t2 ≠ t := by
                  intro hEq
                  subst hEq
                  rw [hinv.tBound t2 h2] at hts
                  exact absurd hts (by simp)
                rw [updf_ne _ _ htn]
                exact hinv.tBound t2 h2
              · intro e2 h2
                rcases eq_or_ne e2 e with hEq | hne
                · subst hEq
                  exact absurd heB (not_lt.mpr h2)
                · rw [updf_ne _ _ hne]
                  exact hinv.heapHi e2 h2
              · intro e2 h2
                rcases eq_or_ne e2 e with hEq | hne
                · subst hEq
                  exact ⟨_, updf_eq _ _ _⟩
                · rw [updf_ne _ _ hne]
                  exact hinv.heapLo e2 h2
              · intro t2 ts2 e2 ht2 hat
                by_cases h2t : t2 = t
                · rw [h2t] at ht2
                  rw [updf_eq] at ht2
                  injection ht2 with ht2
                  subst ht2
                  simp [anyTarget] at hat
                · rw [updf_ne _ _ h2t] at ht2
                  exact hinv.refB t2 ts2 e2 ht2 hat
              · intro t2 ts2 e2 ht2 hpt
                by_cases h2t : t2 = t
                · rw [h2t] at ht2
                  rw [updf_eq] at ht2
                  injection ht2 with ht2
                  subst ht2
                  simp [popTarget] at hpt
                · rw [updf_ne _ _ h2t] at ht2
                  exact hinv.popMap t2 ts2 e2 ht2 hpt
              · intro t2 ts2 e2 E2 ht2 hpt hE2
                by_cases h2t : t2 = t
                · rw [h2t] at ht2
                  rw [updf_eq] at ht2
                  injection ht2 with ht2
                  subst ht2
                  simp [popTarget] at hpt
                · rw [updf_ne _ _ h2t] at ht2
                  rcases eq_or_ne e2 e with hEq | hne
                  · subst hEq
                    exact absurd rfl (hinv.popNoRefr t2 t ts2 _ e2 ht2 hts hpt)
                  · rw [updf_ne _ _ hne] at hE2
                    exact hinv.popVal t2 ts2 e2 E2 ht2 hpt hE2
              · intro t1 t2 ts1 ts2 e2 ht1 ht2 hp1 hp2
                by_cases h1t : t1 = t
                · rw [h1t] at ht1
                  rw [updf_eq] at ht1
                  injection ht1 with ht1
                  subst ht1
                  simp [popTarget] at hp1
                · by_cases h2t : t2 = t
                  · rw [h2t] at ht2
                    rw [updf_eq] at ht2
                    injection ht2 with ht2
                    subst ht2
                    simp [popTarget] at hp2
                  · rw [updf_ne _ _ h1t] at ht1
                    rw [updf_ne _ _ h2t] at ht2
                    exact hinv.popUniq t1 t2 ts1 ts2 e2 ht1 ht2 hp1 hp2
              · intro t1 t2 ts1 ts2 e2 ht1 ht2 hp1
                by_cases h1t : t1 = t
                · rw [h1t] at ht1
                  rw [updf_eq] at ht1
                  injection ht1 with ht1
                  subst ht1
                  simp [popTarget] at hp1
                · rw [updf_ne _ _ h1t] at ht1
                  by_cases h2t : t2 = t
                  · rw [h2t] at ht2
                    rw [updf_eq] at ht2
                    injection ht2 with ht2
                    subst ht2
                    simp [refrTarget]
                  · rw [updf_ne _ _ h2t] at ht2
                    exact hinv.popNoRefr t1 t2 ts1 ts2 e2 ht1 ht2 hp1
              · intro t2 ts2 e2 ht2 hrt
                by_cases h2t : t2 = t
                · rw [h2t] at ht2
                  rw [updf_eq] at ht2
                  injection ht2 with ht2
                  subst ht2
                  simp [refrTarget] at hrt
                · rw [updf_ne _ _ h2t] at ht2
                  exact hinv.refrMap t2 ts2 e2 ht2 hrt
              · intro t2 ts2 e2 E2 ht2 hit hE2
                by_cases h2t : t2 = t
                · rw [h2t] at ht2
                  rw [updf_eq] at ht2
                  injection ht2 with ht2
                  subst ht2
                  simp [inFlightTarget] at hit
                · rw [updf_ne _ _ h2t] at ht2
                  rcases eq_or_ne e2 e with hEq | hne
                  · subst hEq
                    have hw2 := hinv.own t2 ts2 e2 ⟨Ev, Ex, Ew, Er⟩ ht2 hit hE
                    have hww := hOwn.symm.trans hw2
                    injection hww with hww
                    exact absurd hww.symm h2t
                  · rw [updf_ne _ _ hne] at hE2
                    exact hinv.own t2 ts2 e2 E2 ht2 hit hE2
              · intro e2 E2 hE2 hval
                rcases eq_or_ne e2 e with hEq | hne
                · subst hEq
                  exact hMapR
                · rw [updf_ne _ _ hne] at hE2
                  exact hinv.valMap e2 E2 hE2 hval
      | refrDone => dsimp only at hstep; exact absurd hstep (by simp)

theorem initConf_thread {nows : List Int} {t : TId} {ts : TState}
    (hts : (initConf nows).threads t = some ts) : ∃ nw, ts = .req .start nw := by
  dsimp only [initConf] at hts
  by_cases hlt : t < nows.length
  · rw [dif_pos hlt] at hts
    injection hts with hts
    exact ⟨_, hts.symm⟩
  · rw [dif_neg hlt] at hts
    exact absurd hts (by simp)

theorem Inv_init (nows : List Int) : Inv (initConf nows) := by
  refine ⟨?_, ?_, ?_, ?_, ?_, ?_, ?_, ?_, ?_, ?_, ?_, ?_⟩
  · intro t h2
    dsimp only [initConf] at h2 ⊢
    rw [dif_neg (not_lt.mpr h2)]
  · intro e h2
    rfl
  · intro e h2
    dsimp only [initConf] at h2
    exact absurd h2 (Nat.not_lt_zero e)
  · intro e h2
    exact absurd h2 (by simp [initConf])
  · intro t ts e hts hat
    obtain ⟨nw, rfl⟩ := initConf_thread hts
    exact absurd hat (by simp [anyTarget])
  · intro t ts e hts hpt
    obtain ⟨nw, rfl⟩ := initConf_thread hts
    exact absurd hpt (by simp [popTarget])
  · intro t ts e E hts hpt hE
    obtain ⟨nw, rfl⟩ := initConf_thread hts
    exact absurd hpt (by simp [popTarget])
  · intro t1 t2 ts1 ts2 e ht1 ht2 hp1 hp2
    obtain ⟨nw, rfl⟩ := initConf_thread ht1
    exact absurd hp1 (by simp [popTarget])
  · intro t1 t2 ts1 ts2 e ht1 ht2 hp1
    obtain ⟨nw, rfl⟩ := initConf_thread ht2
    simp [refrTarget]
  · intro t ts e hts hrt
    obtain ⟨nw, rfl⟩ := initConf_thread hts
    exact absurd hrt (by simp [refrTarget])
  · intro t ts e E hts hit hE
    obtain ⟨nw, rfl⟩ := initConf_thread hts
    exact absurd hit (by simp [inFlightTarget])
  · intro e E hE hval
    exact absurd hE (by simp [initConf])

theorem Inv_run (h : HandlerFn) (p : List GoString) (ttl : Int) (sched : List TId) :
    ∀ c : Conf, Inv c → Inv (run h p ttl c sched) := by
  induction sched with
  | nil => intro c hc; exact hc
  | cons t rest ih =>
    intro c hc
    have hstep1 : Inv ((step h p ttl c t).getD c) := by
      cases hst : step h p ttl c t with
      | none => simpa using hc
      | some c2 => simpa using step_inv hc hst
    simpa only [run, List.foldl_cons] using ih _ hstep1

theorem Reach_inv {h : HandlerFn} {p : List GoString} {ttl : Int} {nows : List Int} {c : Conf}
    (hr : Reach h p ttl nows c) : Inv c := by
  obtain ⟨sched, rfl⟩ := hr
  exact Inv_run h p ttl sched _ (Inv_init nows)

theorem inFlight_cases {ts : TState} {e : EId} (hi : inFlightTarget ts = some e) :
    popTarget ts = some e ∨ refrTarget ts = some e := by
  cases ts with
  | req pc nw => cases pc <;> simp_all [inFlightTarget, popTarget, refrTarget]
  | refr pc nw => cases pc <;> simp_all [inFlightTarget, popTarget, refrTarget]

theorem inFlight_mapE {c : Conf} (hinv : Inv c) {t : TId} {ts : TState} {e : EId}
    (hts : c.threads t = some ts) (hi : inFlightTarget ts = some e) : c.mapE = some e := by
  rcases inFlight_cases hi with hp | hp
  · exact hinv.popMap t ts e hts hp
  · exact hinv.refrMap t ts e hts hp

theorem inflight_exclusive {h : HandlerFn} {p : List GoString} {ttl : Int}
    {nows : List Int} {c : Conf} (hr : Reach h p ttl nows c) :
    ∀ t1 t2 ts1 ts2 e1 e2, c.threads t1 = some ts1 → c.threads t2 = some ts2 →
      inFlightTarget ts1 = some e1 → inFlightTarget ts2 = some e2 → t1 = t2 := by
  have hinv := Reach_inv hr
  intro t1 t2 ts1 ts2 e1 e2 ht1 ht2 hi1 hi2
  have hm1 := inFlight_mapE hinv ht1 hi1
  have hm2 := inFlight_mapE hinv ht2 hi2
  have he : e1 = e2 := Option.some.inj (hm1.symm.trans hm2)
  subst he
  have hb : e1 < c.nextE := hinv.refB t1 ts1 e1 ht1 (anyTarget_ifl hi1)
  obtain ⟨E, hE⟩ := hinv.heapLo e1 hb
  have hw1 := hinv.own t1 ts1 e1 E ht1 hi1 hE
  have hw2 := hinv.own t2 ts2 e1 E ht2 hi2 hE
  exact Option.some.inj (hw1.symm.trans hw2)

theorem pop_uniq {c : Conf} (hinv : Inv c) {t1 t2 : TId} {ts1 ts2 : TState} {e1 e2 : EId}
    (ht1 : c.threads t1 = some ts1) (ht2 : c.threads t2 = some ts2)
    (hp1 : popTarget ts1 = some e1) (hp2 : popTarget ts2 = some e2) : t1 = t2 := by
  have hm1 := hinv.popMap t1 ts1 e1 ht1 hp1
  have hm2 := hinv.popMap t2 ts2 e2 ht2 hp2
  have he : e1 = e2 := Option.some.inj (hm1.symm.trans hm2)
  subst he
  exact hinv.popUniq t1 t2 ts1 ts2 e1 ht1 ht2 hp1 hp2

theorem TOk_mapSome {v : GoString} {pb : Nat} {m : Option EId} {e : EId} {ts : TState}
    (hok : TOk v pb m ts) : TOk v pb (some e) ts := by
  cases ts with
  | req pc nw => cases pc <;> simp_all [TOk]
  | refr pc nw => cases pc <;> simp_all [TOk]

theorem stepB {h : HandlerFn} {p : List GoString} {ttl : Int} {v : GoString}
    (hv : ∀ q, h q = (some v, none)) {c c2 : Conf} {t : TId}
    (hinv : Inv c) (hB : InvB v c) (hstep : step h p ttl c t = some c2) : InvB v c2 := by
  unfold step at hstep
  cases hts : c.threads t with
  | none => rw [hts] at hstep; exact absurd hstep (by simp)
  | some ts =>
    rw [hts] at hstep
    cases ts with
    | req rpc now =>
      cases rpc with
      | start =>
        dsimp only at hstep
        cases hm : c.mapE with
        | none =>
          rw [hm] at hstep
          dsimp only at hstep
          injection hstep with h2
          subst h2
          refine ⟨hB.begun, ?_, ?_, ?_⟩ <;> dsimp only
          · intro h2
            exact absurd h2 (by simp)
          · intro e2 E2 hE2
            rcases eq_or_ne e2 c.nextE with hEq | hne
            · subst hEq
              rw [updf_eq] at hE2
              injection hE2 with hE2
              rw [← hE2]
              exact Or.inl rfl
            · rw [updf_ne _ _ hne] at hE2
              exact hB.vals e2 E2 hE2
          · intro t2 ts2 ht2
            by_cases h2t : t2 = t
            · subst h2t
              rw [updf_eq] at ht2
              injection ht2 with ht2
              rw [← ht2]
              exact hB.mapZero hm
            · rw [updf_ne _ _ h2t] at ht2
              exact TOk_mapSome (hB.tok t2 ts2 ht2)
        | some e0 =>
          rw [hm] at hstep
          dsimp only at hstep
          injection hstep with h2
          subst h2
          rw [← hm]
          refine ⟨hB.begun, hB.mapZero, hB.vals, ?_⟩ <;> dsimp only
          intro t2 ts2 ht2
          by_cases h2t : t2 = t
          · subst h2t
            rw [updf_eq] at ht2
            injection ht2 with ht2
            rw [← ht2]
            show c.mapE ≠ none
            rw [hm]
            simp
          · rw [updf_ne _ _ h2t] at ht2
            exact hB.tok t2 ts2 ht2
      | popLock e =>
        dsimp only at hstep
        cases hE : c.heap e with
        | none => rw [hE] at hstep; exact absurd hstep (by simp)
        | some E =>
          obtain ⟨Ev, Ex, Ew, Er⟩ := E
          rw [hE] at hstep
          dsimp only at hstep
          by_cases hg : Ew = none ∧ Er = []
          · rw [if_pos hg] at hstep
            injection hstep with h2
            subst h2
            have h0 : c.popBegun = 0 := hB.tok t _ hts
            have hMap : c.mapE = some e := hinv.popMap t _ e hts rfl
            refine ⟨?_, ?_, ?_, ?_⟩ <;> dsimp only
            · rw [h0]
            · intro h2
              rw [hMap] at h2
              exact absurd h2 (by simp)
            · intro e2 E2 hE2
              rcases eq_or_ne e2 e with hEq | hne
              · subst hEq
                rw [updf_eq] at hE2
                injection hE2 with hE2
                rw [← hE2]
                exact hB.vals e2 ⟨Ev, Ex, Ew, Er⟩ hE
              · rw [updf_ne _ _ hne] at hE2
                exact hB.vals e2 E2 hE2
            · intro t2 ts2 ht2
              by_cases h2t : t2 = t
              · subst h2t
                rw [updf_eq] at ht2
                injection ht2 with ht2
                rw [← ht2]
                exact trivial
              · rw [updf_ne _ _ h2t] at ht2
                have hok := hB.tok t2 ts2 ht2
                cases ts2 with
                | refr pc2 nw2 => cases pc2 <;> exact trivial
                | req pc2 nw2 =>
                  cases pc2 with
                  | popLock e2 => exact absurd (pop_uniq hinv ht2 hts rfl rfl) h2t
                  | start => exact trivial
                  | popInvoke e2 => exact trivial
                  | popDelete e2 err2 => exact hok
                  | readStore => exact hok
                  | readEntry e2 => exact trivial
                  | readValue e2 => exact trivial
                  | done oc2 => exact hok
          · rw [if_neg hg] at hstep
            exact absurd hstep (by simp)
      | popInvoke e =>
        dsimp only at hstep
        cases hE : c.heap e with
        | none => rw [hE] at hstep; exact absurd hstep (by simp)
        | some E =>
          obtain ⟨Ev, Ex, Ew, Er⟩ := E
          rw [hE, hv p] at hstep
          dsimp only at hstep
          injection hstep with h2
          subst h2
          have hMap : c.mapE = some e := hinv.popMap t _ e hts rfl
          refine ⟨hB.begun, ?_, ?_, ?_⟩ <;> dsimp only
          · intro h2
            rw [hMap] at h2
            exact absurd h2 (by simp)
          · intro e2 E2 hE2
            rcases eq_or_ne e2 e with hEq | hne
            · subst hEq
              rw [updf_eq] at hE2
              injection hE2 with hE2
              rw [← hE2]
              exact Or.inr rfl
            · rw [updf_ne _ _ hne] at hE2
              exact hB.vals e2 E2 hE2
          · intro t2 ts2 ht2
            by_cases h2t : t2 = t
            · subst h2t
              rw [updf_eq] at ht2
              injection ht2 with ht2
              rw [← ht2]
              show c.mapE ≠ none
              rw [hMap]
              simp
            · rw [updf_ne _ _ h2t] at ht2
              exact hB.tok t2 ts2 ht2
      | popDelete e err =>
        have hok : False := hB.tok t _ hts
        exact hok.elim
      | readStore =>
        dsimp only at hstep
        cases hm : c.mapE with
        | none =>
          have hok : c.mapE ≠ none := hB.tok t _ hts
          exact absurd hm hok
        | some e0 =>
          rw [hm] at hstep
          dsimp only at hstep
          injection hstep with h2
          subst h2
          rw [← hm]
          refine ⟨hB.begun, hB.mapZero, hB.vals, ?_⟩ <;> dsimp only
          intro t2 ts2 ht2
          by_cases h2t : t2 = t
          · subst h2t
            rw [updf_eq] at ht2
            injection ht2 with ht2
            rw [← ht2]
            exact trivial
          · rw [updf_ne _ _ h2t] at ht2
            exact hB.tok t2 ts2 ht2
      | readEntry e =>
        dsimp only at hstep
        cases hE : c.heap e with
        | none => rw [hE] at hstep; exact absurd hstep (by simp)
        | some E =>
          obtain ⟨Ev, Ex, Ew, Er⟩ := E
          rw [hE] at hstep
          dsimp only at hstep
          by_cases hg : Ew = none
          · rw [if_pos hg] at hstep
            injection hstep with h2
            subst h2
            refine ⟨hB.begun, hB.mapZero, ?_, ?_⟩ <;> dsimp only
            · intro e2 E2 hE2
              rcases eq_or_ne e2 e with hEq | hne
              · subst hEq
                rw [updf_eq] at hE2
                injection hE2 with hE2
                rw [← hE2]
                exact hB.vals e2 ⟨Ev, Ex, Ew, Er⟩ hE
              · rw [updf_ne _ _ hne] at hE2
                exact hB.vals e2 E2 hE2
            · intro t2 ts2 ht2
              by_cases h2t : t2 = t
              · subst h2t
                rw [updf_eq] at ht2
                injection ht2 with ht2
                rw [← ht2]
                exact trivial
              · rw [updf_ne _ _ h2t] at ht2
                exact hB.tok t2 ts2 ht2
          · rw [if_neg hg] at hstep
            exact absurd hstep (by simp)
      | readValue e =>
        dsimp only at hstep
        cases hE : c.heap e with
        | none => rw [hE] at hstep; exact absurd hstep (by simp)
        | some E =>
          obtain ⟨Ev, Ex, Ew, Er⟩ := E
          rw [hE] at hstep
          dsimp only at hstep
          cases Ev with
          | none =>
            dsimp only at hstep
            injection hstep with h2
            subst h2
            refine ⟨hB.begun, hB.mapZero, ?_, ?_⟩ <;> dsimp only
            · intro e2 E2 hE2
              rcases eq_or_ne e2 e with hEq | hne
              · subst hEq
                rw [updf_eq] at hE2
                injection hE2 with hE2
                rw [← hE2]
                exact Or.inl rfl
              · rw [updf_ne _ _ hne] at hE2
                exact hB.vals e2 E2 hE2
            · intro t2 ts2 ht2
              by_cases h2t : t2 = t
              · subst h2t
                rw [updf_eq] at ht2
                injection ht2 with ht2
                rw [← ht2]
                exact Or.inr rfl
              · rw [updf_ne _ _ h2t] at ht2
                exact hB.tok t2 ts2 ht2
          | some v0 =>
            have hvv : v0 = v := by
              rcases hB.vals e ⟨some v0, Ex, Ew, Er⟩ hE with hx | hx
              · exact absurd hx (by simp)
              · exact Option.some.inj hx
            dsimp only at hstep
            by_cases hg : Ex < now
            · rw [if_pos hg] at hstep
              injection hstep with h2
              subst h2
              have htlt : t < c.nextT := thread_lt_nextT hinv hts
              refine ⟨hB.begun, hB.mapZero, ?_, ?_⟩ <;> dsimp only
              · intro e2 E2 hE2
                rcases eq_or_ne e2 e with hEq | hne
                · subst hEq
                  rw [updf_eq] at hE2
                  injection hE2 with hE2
                  rw [← hE2]
                  exact Or.inr (by rw [hvv])
                · rw [updf_ne _ _ hne] at hE2
                  exact hB.vals e2 E2 hE2
              · intro t2 ts2 ht2
                by_cases h2T : t2 = c.nextT
                · subst h2T
                  rw [updf_eq] at ht2
                  injection ht2 with ht2
                  rw [← ht2]
                  exact trivial
                · rw [updf_ne _ _ h2T] at ht2
                  by_cases h2t : t2 = t
                  · subst h2t
                    rw [updf_eq] at ht2
                    injection ht2 with ht2
                    rw [← ht2]
                    exact Or.inl (by rw [hvv])
                  · rw [updf_ne _ _ h2t] at ht2
                    exact hB.tok t2 ts2 ht2
            · rw [if_neg hg] at hstep
              injection hstep with h2
              subst h2
              refine ⟨hB.begun, hB.mapZero, ?_, ?_⟩ <;> dsimp only
              · intro e2 E2 hE2
                rcases eq_or_ne e2 e with hEq | hne
                · subst hEq
                  rw [updf_eq] at hE2
                  injection hE2 with hE2
                  rw [← hE2]
                  exact Or.inr (by rw [hvv])
                · rw [updf_ne _ _ hne] at hE2
                  exact hB.vals e2 E2 hE2
              · intro t2 ts2 ht2
                by_cases h2t : t2 = t
                · subst h2t
                  rw [updf_eq] at ht2
                  injection ht2 with ht2
                  rw [← ht2]
                  exact Or.inl (by rw [hvv])
                · rw [updf_ne _ _ h2t] at ht2
                  exact hB.tok t2 ts2 ht2
      | done oc =>
        exact absurd hstep (by simp)
    | refr gpc now =>
      cases gpc with
      | refrLock e =>
        dsimp only at hstep
        cases hE : c.heap e with
        | none => rw [hE] at hstep; exact absurd hstep (by simp)
        | some E =>
          obtain ⟨Ev, Ex, Ew, Er⟩ := E
          rw [hE] at hstep
          dsimp only at hstep
          by_cases hg : Ew = none ∧ Er = []
          · rw [if_pos hg] at hstep
            injection hstep with h2
            subst h2
            refine ⟨hB.begun, hB.mapZero, ?_, ?_⟩ <;> dsimp only
            · intro e2 E2 hE2
              rcases eq_or_ne e2 e with hEq | hne
              · subst hEq
                rw [updf_eq] at hE2
                injection hE2 with hE2
                rw [← hE2]
                exact hB.vals e2 ⟨Ev, Ex, Ew, Er⟩ hE
              · rw [updf_ne _ _ hne] at hE2
                exact hB.vals e2 E2 hE2
            · intro t2 ts2 ht2
              by_cases h2t : t2 = t
              · subst h2t
                rw [updf_eq] at ht2
                injection ht2 with ht2
                rw [← ht2]
                exact trivial
              · rw [updf_ne _ _ h2t] at ht2
                exact hB.tok t2 ts2 ht2
          · rw [if_neg hg] at hstep
            exact absurd hstep (by simp)
      | refrInvoke e =>
        dsimp only at hstep
        cases hE : c.heap e with
        | none => rw [hE] at hstep; exact absurd hstep (by simp)
        | some E =>
          obtain ⟨Ev, Ex, Ew, Er⟩ := E
          rw [hE, hv p] at hstep
          dsimp only at hstep
          injection hstep with h2
          subst h2
          refine ⟨hB.begun, hB.mapZero, ?_, ?_⟩ <;> dsimp only
          · intro e2 E2 hE2
            rcases eq_or_ne e2 e with hEq | hne
            · subst hEq
              rw [updf_eq] at hE2
              injection hE2 with hE2
              rw [← hE2]
              exact Or.inr rfl
            · rw [updf_ne _ _ hne] at hE2
              exact hB.vals e2 E2 hE2
          · intro t2 ts2 ht2
            by_cases h2t : t2 = t
            · subst h2t
              rw [updf_eq] at ht2
              injection ht2 with ht2
              rw [← ht2]
              exact trivial
            · rw [updf_ne _ _ h2t] at ht2
              exact hB.tok t2 ts2 ht2
      | refrDone =>
        exact absurd hstep (by simp)

theorem InvB_init (v : GoString) (nows : List Int) : InvB v (initConf nows) := by
  refine ⟨Nat.zero_le 1, ?_, ?_, ?_⟩
  · intro h2
    rfl
  · intro e E hE
    exact absurd hE (by simp [initConf])
  · intro t ts hts
    obtain ⟨nw, rfl⟩ := initConf_thread hts
    exact trivial

theorem run_invB {h : HandlerFn} {p : List GoString} {ttl : Int} {v : GoString}
    (hv : ∀ q, h q = (some v, none)) (sched : List TId) :
    ∀ c : Conf, Inv c → InvB v c → InvB v (run h p ttl c sched) := by
  induction sched with
  | nil => intro c _ hB; exact hB
  | cons t rest ih =>
    intro c hc hB
    have h1 : Inv ((step h p ttl c t).getD c) ∧ InvB v ((step h p ttl c t).getD c) := by
      cases hst : step h p ttl c t with
      | none => simpa using ⟨hc, hB⟩
      | some c2 => simpa using ⟨step_inv hc hst, stepB hv hc hB hst⟩
    simpa only [run, List.foldl_cons] using ih _ h1.1 h1.2

theorem Reach_invB {h : HandlerFn} {p : List GoString} {ttl : Int} {v : GoString}
    {nows : List Int} {c : Conf} (hv : ∀ q, h q = (some v, none))
    (hr : Reach h p ttl nows c) : InvB v c := by
  obtain ⟨sched, rfl⟩ := hr
  exact run_invB hv sched _ (Inv_init nows) (InvB_init v nows)

/-- C9: counterexample to the literal claim.  Two concurrent first-time
requests for the same key with a handler that always fails: the first
population fails and rolls the entry back, after which the second request
begins a second synchronous population — the handler is invoked twice
(popBegun = 2), and both requests finish with the handler error. -/
theorem C9_counterexample :
    (run (fun _ => (none, some 7)) [[97]] 10 (initConf [0, 0])
        [0, 0, 0, 0, 1, 1, 1, 1]).popBegun = 2 ∧
    (run (fun _ => (none, some 7)) [[97]] 10 (initConf [0, 0])
        [0, 0, 0, 0, 1, 1, 1, 1]).threads 0 =
      some (.req (.done (.fail (.handlerFailed 7))) 0) ∧
    (run (fun _ => (none, some 7)) [[97]] 10 (initConf [0, 0])
        [0, 0, 0, 0, 1, 1, 1, 1]).threads 1 =
      some (.req (.done (.fail (.handlerFailed 7))) 0) :=
  ⟨rfl, rfl, rfl⟩

/-- C9 (amended): in every configuration reachable by N concurrent
first-time requests for one key, (1) for any handler, at most one
populate-or-refresh handler invocation is in flight at any instant; and
(2) for a handler that always succeeds with value v, the synchronous
population path has invoked the handler at most once, and every finished
request holds either the value v or the CacheEmpty error.  The literal
exactly-once claim fails when a population fails and is rolled back
(C9_counterexample). -/
theorem C9_single_population_amended {h : HandlerFn} {p : List GoString} {ttl : Int}
    {nows : List Int} {c : Conf} (hr : Reach h p ttl nows c) :
    (∀ t1 t2 ts1 ts2 e1 e2, c.threads t1 = some ts1 → c.threads t2 = some ts2 →
      inFlightTarget ts1 = some e1 → inFlightTarget ts2 = some e2 → t1 = t2) ∧
    (∀ v, (∀ q, h q = (some v, none)) →
      c.popBegun ≤ 1 ∧
      ∀ t ts oc nw, c.threads t = some ts → ts = .req (.done oc) nw →
        oc = .ok v ∨ oc = .fail .cacheEmpty) := by
  constructor
  · exact inflight_exclusive hr
  · intro v hv
    have hB := Reach_invB hv hr
    refine ⟨hB.begun, ?_⟩
    intro t ts oc nw hts hts2
    have hok := hB.tok t ts hts
    rw [hts2] at hok
    exact hok

/-- Witness for C9: a concrete schedule of one first-time request with a
handler that always succeeds, driven to completion; the amended theorem
yields the at-most-once population bound on it. -/
theorem C9_witness :
    (run (fun _ => (some [97], none)) [[98]] 10 (initConf [0])
        [0, 0, 0, 0, 0, 0]).popBegun ≤ 1 := by
  have hr : Reach (fun _ => ((some [97] : Option GoString), (none : Option HErr))) [[98]] 10 [0]
      (run (fun _ => (some [97], none)) [[98]] 10 (initConf [0]) [0, 0, 0, 0, 0, 0]) :=
    ⟨[0, 0, 0, 0, 0, 0], rfl⟩
  exact ((C9_single_population_amended hr).2 [97] (fun q => rfl)).1

end Minicache
